import Mathlib

/-!
# PeakQuiz / GeoQuiz core: a shallow embedding with proofs

This file embeds the guess-matching and statistics code of the repository
(the `normalize` / `isMatch` canonicalizer and matcher, the guess ledger
update of `handleSubmit`, the rescoring step of `processServerFile`, and
the statistics views `RationalPropertyView`, `RankedList`,
`NominalPropertyView`, `FilteredCorrectView`) as executable Lean
definitions, and proves or refutes the specification claims about them.

Strings are modeled as `List Char`.  JavaScript numbers occurring in the
statistics are modeled as `ℚ`.  The external Unicode NFKD normalization
(`String.prototype.normalize("NFKD")`) is a parameter `nfkd` of the
embedding; theorems that need it assume only that it fixes strings made of
ASCII lower-case alphanumerics and spaces, which is true of real NFKD.
-/

/- The arithmetic of `Rat` is irreducible by default, which blocks kernel
evaluation of the concrete statistics computations below; restore the
definitional behavior locally so that `decide` can evaluate them. -/
attribute [local semireducible] Rat.add Rat.mul Rat.sub Rat.inv Rat.ofScientific

/-- Whitespace characters matched by the JavaScript regexp class `\s`
(and removed by `String.prototype.trim`): tab, line feed, vertical tab,
form feed, carriage return, space, no-break space, the Unicode space
separators, the line/paragraph separators and the BOM. -/
def isJsWs (c : Char) : Bool :=
  c = ' ' || c = '\t' || c = '\n' || c.val = 11 || c.val = 12 || c = '\r' ||
  c.val = 0xa0 || c.val = 0x1680 || (0x2000 ≤ c.val && c.val ≤ 0x200a) ||
  c.val = 0x2028 || c.val = 0x2029 || c.val = 0x202f || c.val = 0x205f ||
  c.val = 0x3000 || c.val = 0xfeff

/-- Characters in the regexp class `[a-z0-9]`. -/
def tokenChar (c : Char) : Bool :=
  ('a' ≤ c && c ≤ 'z') || ('0' ≤ c && c ≤ '9')

/-- Characters surviving `replace(/[^a-z0-9\s]+/g, "")`. -/
def keepChar (c : Char) : Bool := tokenChar c || isJsWs c

/-- `String.prototype.trim`: drop leading and trailing whitespace. -/
def jsTrim (cs : List Char) : List Char :=
  ((cs.dropWhile isJsWs).reverse.dropWhile isJsWs).reverse

/-- `split(/\s+/)`.  The state is `some acc` while a token is being read
(`acc` holds its characters reversed) and `none` while a whitespace run is
being skipped.  As in JavaScript, a leading whitespace run contributes a
leading empty token and a trailing whitespace run a trailing empty token,
and the empty string splits to `[""]`. -/
def splitWsGo : List Char → Option (List Char) → List (List Char)
  | [], some acc => [acc.reverse]
  | [], none => [[]]
  | c :: rest, some acc =>
      if isJsWs c then acc.reverse :: splitWsGo rest none
      else splitWsGo rest (some (c :: acc))
  | c :: rest, none =>
      if isJsWs c then splitWsGo rest none
      else splitWsGo rest (some [c])

def splitWs (cs : List Char) : List (List Char) := splitWsGo cs (some [])

/-- `Array.prototype.join(" ")`. -/
def sjoin : List (List Char) → List Char
  | [] => []
  | [t] => t
  | t :: u :: ts => t ++ ' ' :: sjoin (u :: ts)

/-- The token rewriting step of the final version's `normalize`:
`"st" ↦ "saint"`, `"mt" ↦ "mount"`. -/
def foldAbbrev (t : List Char) : List Char :=
  if t = ['s', 't'] then ['s', 'a', 'i', 'n', 't']
  else if t = ['m', 't'] then ['m', 'o', 'u', 'n', 't'] else t

/-- `normalize(s, ignoredWords)` of the final version:
`s.trim().toLowerCase().normalize("NFKD").replace(/[^a-z0-9\s]+/g, "")`
`.split(/\s+/).filter(part => !ignoredWords.includes(part))`
`.map(st ↦ saint, mt ↦ mount).join(" ")`,
parameterized by the external NFKD normalization function. -/
def normalizeCore (nfkd : List Char → List Char) (iw : List (List Char))
    (s : List Char) : List Char :=
  sjoin ((((splitWs ((nfkd ((jsTrim s).map Char.toLower)).filter keepChar)).filter
    (fun t => !(iw.contains t))).map foldAbbrev))

/-- `normalize` on Lean strings. -/
def normalizeStr (nfkd : List Char → List Char) (iw : List String) (s : String) : String :=
  ⟨normalizeCore nfkd (iw.map String.data) s.data⟩

example : normalizeStr id [] "Mt. Rainier " = "mount rainier" := by decide
example : normalizeStr id ["mount"] "Mount Rainier" = "rainier" := by decide
example : normalizeStr id [] "a !" = "a " := by decide
example : normalizeStr id ["saint"] "st" = "saint" := by decide
example : normalizeStr id ["saint"] "saint" = "" := by decide

/-- The `ignoredWords` constant of the intermediate (`src/src/App.tsx`)
version, where the word list is still hard-coded. -/
def ignoredWordsTsx : List (List Char) :=
  ["peak", "mount", "mountain", "mt", "mont", "monte", "montana", "pico",
   "de", "volcano", "volcan", "la", "el", "the"].map String.data

/-- The token rewriting step of the intermediate version: `"saint" ↦ "st"`
(the opposite folding direction of the final version). -/
def foldSaintSt (t : List Char) : List Char :=
  if t = ['s', 'a', 'i', 'n', 't'] then ['s', 't'] else t

/-- `normalize(s)` of the intermediate (`App.tsx`) version: same pipeline
with the hard-coded ignored words and the `saint ↦ st` folding. -/
def normalizeTsxCore (nfkd : List Char → List Char) (s : List Char) : List Char :=
  sjoin (((splitWs ((nfkd ((jsTrim s).map Char.toLower)).filter keepChar)).filter
    (fun t => !(ignoredWordsTsx.contains t))).map foldSaintSt)

/-!
## Entities and the matcher

An entity (GeoJSON feature) carries a mapping from attribute names to
values; a value is a string or a number (`Val`).  `Feature.get` is the
JavaScript property access `feature.properties?.[name]`, yielding
`none` for an absent attribute (JavaScript `undefined`).
-/

/-- A property value: a string or a number (numbers modeled as `ℚ`). -/
inductive Val where
  | str (s : String)
  | num (q : ℚ)
deriving DecidableEq

def Val.isStr : Val → Bool
  | .str _ => true
  | .num _ => false

def Val.isNum : Val → Bool
  | .num _ => true
  | .str _ => false

/-- An entity: a record of named attribute values. -/
structure Feature where
  props : List (String × Val)
deriving DecidableEq

/-- `feature.properties?.[p]` — `none` models JavaScript `undefined`. -/
def Feature.get (f : Feature) (p : String) : Option Val :=
  (f.props.find? (fun kv => kv.1 == p)).map (fun kv => kv.2)

/-- `normalize` applied to a possibly-`undefined` argument.  JavaScript
`undefined.trim()` throws a `TypeError`; the thrown state is modeled by
`none` (there is no code path producing a string from `undefined`). -/
def jsNormalize (nfkd : List Char → List Char) (iw : List String)
    (s : Option String) : Option String :=
  s.map (normalizeStr nfkd iw)

/-- The attribute scan of the final version's `isMatch`: for each listed
attribute name in order, if the entity has a defined value, canonicalize
it and compare with the canonicalized guess, returning `some true` on the
first hit and `some false` when the list is exhausted.  A defined value
that is not a string would make JavaScript `normalize` throw at
`.trim()`; that exception is modeled by `none`. -/
def isMatchScan (nfkd : List Char → List Char) (iwL : List (List Char))
    (gN : List Char) (f : Feature) : List String → Option Bool
  | [] => some false
  | p :: ps =>
    match f.get p with
    | none => isMatchScan nfkd iwL gN f ps
    | some (.str v) =>
        if normalizeCore nfkd iwL v.data = gN then some true
        else isMatchScan nfkd iwL gN f ps
    | some (.num _) => none

/-- `isMatch(guess, answer, titleProperty, altTitleProperties,
ignoredWords)` of the final version: canonicalize the guess once, then
scan `[titleProperty, ...altTitleProperties]`. -/
def isMatch (nfkd : List Char → List Char) (guess : String) (f : Feature)
    (titleProperty : String) (altTitleProperties ignoredWords : List String) :
    Option Bool :=
  isMatchScan nfkd (ignoredWords.map String.data)
    (normalizeCore nfkd (ignoredWords.map String.data) guess.data) f
    (titleProperty :: altTitleProperties)

/-- `isMatch(guess, answer)` of the intermediate (`App.tsx`) version:
`normalize(answer.properties?.["title"])` is applied without a
definedness guard, so a missing (or non-string) title makes `normalize`
throw at `.trim()` — modeled by `none`. -/
def isMatchTsx (nfkd : List Char → List Char) (guess : String) (f : Feature) :
    Option Bool :=
  match f.get "title" with
  | some (.str t) => some (normalizeTsxCore nfkd t.data == normalizeTsxCore nfkd guess.data)
  | _ => none

example : isMatch id "Chhogori" ⟨[("title", .str "K2"), ("altTitle", .str "Chhogori")]⟩
    "title" ["altTitle"] [] = some true := by decide
example : isMatch id "Everest" ⟨[("title", .str "K2"), ("altTitle", .str "Chhogori")]⟩
    "title" ["altTitle"] [] = some false := by decide
example : isMatchTsx id "Rainier" ⟨[]⟩ = none := by decide

/-!
## The guess ledger

A JavaScript `Set` over strings or entities is modeled as a duplicate-free
list in iteration (insertion) order; `jsSet` is `new Set(list)`.
-/

def jsInsert {α : Type} [DecidableEq α] (acc : List α) (a : α) : List α :=
  if a ∈ acc then acc else acc ++ [a]

/-- `new Set(l)`: keep the first occurrence of each element, in order. -/
def jsSet {α : Type} [DecidableEq α] (l : List α) : List α := l.foldl jsInsert []

/-- The guesses-ledger update of `handleSubmit` in the final version:
`if (draft && !guesses.has(draft)) setGuesses(new Set([draft,
...guesses.values()]))`.  `draft` is `null` or the raw input string; the
JavaScript truthiness test rejects `null` and the empty string only.
Since `draft` is not already present, the new set is `draft` followed by
the previous guesses in order. -/
def handleSubmitGuesses (draft : Option String) (guesses : List String) : List String :=
  match draft with
  | none => guesses
  | some d => if d ≠ "" ∧ d ∉ guesses then d :: guesses else guesses

/-- The guesses-ledger update of the earliest versions
(`src/src/App.tsx` first revision and `src/unnamed/part_000`):
`setGuesses([...guesses, draft])` resp.
`setGuesses(new Set([...guesses.values(), draft]))` — the new guess is
appended at the back. -/
def handleSubmitGuessesV0 (draft : Option String) (guesses : List String) : List String :=
  match draft with
  | none => guesses
  | some d => if d ≠ "" ∧ d ∉ guesses then guesses ++ [d] else guesses

/-!
## Loading a collection: `processServerFile`

The final version's load handler re-matches every stored guess against
the incoming features and then unions the matches with the *previous*
Correct Set: `setCorrect(new Set([...answers, ...correct.values()]))`,
skipped entirely when there are no matches.  A `filter` whose predicate
throws (non-string title data) aborts the handler; exceptions are
modeled by `Option`.
-/

/-- The optional `geoquiz` configuration block of a loaded file; absent
fields fall back to the defaults (`"title"`, `[]`, `[]`). -/
structure GeoquizParams where
  titleProperty : Option String
  altTitleProperties : Option (List String)
  ignoredWords : Option (List String)

def effTitle (g : Option GeoquizParams) : String :=
  (g.bind (fun x => x.titleProperty)).getD "title"

def effAlts (g : Option GeoquizParams) : List String :=
  (g.bind (fun x => x.altTitleProperties)).getD []

def effIgnored (g : Option GeoquizParams) : List String :=
  (g.bind (fun x => x.ignoredWords)).getD []

/-- `Array.prototype.filter` with a predicate that can throw (`none`). -/
def filterExc (p : Feature → Option Bool) : List Feature → Option (List Feature)
  | [] => some []
  | f :: fs =>
    match p f with
    | none => none
    | some b => (filterExc p fs).map (fun r => if b then f :: r else r)

/-- The Correct-Set update performed by `processServerFile` of the final
version when a file load succeeds: re-match every stored guess against
the new features (`reduce` accumulating `answers`), then — only when at
least one match was found — replace the Correct Set by
`new Set([...answers, ...correct.values()])`. -/
def processServerFileCorrect (nfkd : List Char → List Char) (guesses : List String)
    (features : List Feature) (geoquiz : Option GeoquizParams)
    (correct : List Feature) : Option (List Feature) :=
  (guesses.foldlM (fun acc g =>
      (filterExc
        (fun f => isMatch nfkd g f (effTitle geoquiz) (effAlts geoquiz) (effIgnored geoquiz))
        features).map (fun ans => acc ++ ans)) []).map
    (fun answers => if answers.isEmpty then correct else jsSet (answers ++ correct))

/-!
## Statistics views
-/

/-- How a percentage is rendered: omitted from the markup, rendered as a
number, or rendered as the `NaN` / `Infinity` artifact of an unguarded
division. -/
inductive PercentView where
  | omitted
  | shown (n : ℤ)
  | shownNaN
  | shownInf
deriving DecidableEq

/-- `Math.round`: round to nearest, halves toward positive infinity,
i.e. the floor of `q + 1/2` (`Rat.floor` is the executable floor). -/
def jsRound (q : ℚ) : ℤ := (q + 1 / 2).floor

/-- `list.reduce((sum, f) => sum + f.properties?.[p], 0)`.  An undefined
operand makes the JavaScript sum `NaN`, modeled by `none`; a string
operand leaves the numeric domain as well (string concatenation) and is
likewise outside the modeled values — the theorems below restrict to
attributes whose defined values are numeric. -/
def sumNum (fs : List Feature) (p : String) : Option ℚ :=
  fs.foldl (fun acc f =>
    match acc, f.get p with
    | some a, some (.num b) => some (a + b)
    | _, _ => none) (some 0)

/-- The weighted-sum percentage of `RationalPropertyView`:
`percentage = Math.round(sumCorrect / total * 100)` is rendered only
behind the `total > 0` guard (`NaN > 0` is false, so a `NaN` total is
omitted; a `NaN` numerator over a positive total renders `NaN`). -/
def RationalPropertyView (correct all : List Feature) (p : String) : PercentView :=
  match sumNum all p, sumNum correct p with
  | some t, some c => if 0 < t then .shown (jsRound (c / t * 100)) else .omitted
  | some t, none => if 0 < t then .shownNaN else .omitted
  | none, _ => .omitted

/-!
## Ranking (`sortBy`, `RankedList`)
-/

/-- The strict part of the `sortBy` comparator
`(ap === bp ? 0 : ap < bp ? -1 : 1)`.  JavaScript `<` compares two
numbers numerically and two strings lexicographically; a comparison
against `undefined` is false.  (A mixed number/string comparison would
coerce in JavaScript; the ranking theorems restrict to attributes whose
defined values have a single type, where no coercion occurs.) -/
def jsLtVal : Option Val → Option Val → Bool
  | some (.num a), some (.num b) => decide (a < b)
  | some (.str a), some (.str b) => decide (a < b)
  | _, _ => false

/-- `a` may precede `b` under the comparator: equal (`=== → 0`) or less. -/
def jsLeVal (x y : Option Val) : Bool := x == y || jsLtVal x y

/-- `feature.properties?.[p] >= cutoff` (false when either side is
undefined, as in JavaScript). -/
def jsGeVal : Option Val → Option Val → Bool
  | some (.num a), some (.num b) => decide (b ≤ a)
  | some (.str a), some (.str b) => decide (b ≤ a)
  | _, _ => false

/-- Whether `a` precedes-or-ties `b` in the `sortBy(features, p, asc)`
order. -/
def cmpLe (p : String) (asc : Bool) (a b : Feature) : Bool :=
  if asc then jsLeVal (a.get p) (b.get p) else jsLeVal (b.get p) (a.get p)

def insertSorted (le : Feature → Feature → Bool) (f : Feature) :
    List Feature → List Feature
  | [] => [f]
  | g :: gs => if le f g then f :: g :: gs else g :: insertSorted le f gs

/-- `sortBy(features, property, asc)` = `[...features].sort(comparator)`.
`Array.prototype.sort` with a consistent comparator produces a sorted
permutation with unspecified tie order; it is modeled by insertion sort
(the claims depend only on the sorted value sequence and on membership). -/
def sortBy (features : List Feature) (p : String) (asc : Bool) : List Feature :=
  features.foldr (insertSorted (cmpLe p asc)) []

/-- `list.filter(f => f.properties?.[p] !== undefined)`. -/
def definedOn (l : List Feature) (p : String) : List Feature :=
  l.filter (fun f => (f.get p).isSome)

/-- The outputs of `RankedList`: the two top-ten display lists, the two
cutoff values, and the four reported counts. -/
structure RankedCounts where
  highestCorrectTen : List Feature
  lowestCorrectTen : List Feature
  cutHigh : Option Val
  cutLow : Option Val
  nTop : ℕ
  mTop : ℕ
  nBot : ℕ
  mBot : ℕ
deriving DecidableEq

/-- `RankedList` of the final version: filter out entities with an
undefined value, slice the ten extreme correct entities for display, take
the value at index `min(9, definedAll.length - 1)` of the sorted entities
as cutoff for each direction (the optional-chaining `?.` yields
`undefined` for an out-of-range index, i.e. when `definedAll` is empty),
and count the correct resp. all defined entities at-or-beyond each
cutoff. -/
def RankedList (correct all : List Feature) (p : String) : RankedCounts :=
  let definedCorrect := definedOn correct p
  let definedAll := definedOn all p
  let k := min 9 (definedAll.length - 1)
  let highCut := ((sortBy definedAll p false).get? k).bind (fun f => f.get p)
  let lowCut := ((sortBy definedAll p true).get? k).bind (fun f => f.get p)
  { highestCorrectTen := (sortBy definedCorrect p false).take 10
    lowestCorrectTen := (sortBy definedCorrect p true).take 10
    cutHigh := highCut
    cutLow := lowCut
    nTop := (definedCorrect.filter (fun f => jsGeVal (f.get p) highCut)).length
    mTop := (definedAll.filter (fun f => jsGeVal (f.get p) highCut)).length
    nBot := (definedCorrect.filter (fun f => jsGeVal lowCut (f.get p))).length
    mBot := (definedAll.filter (fun f => jsGeVal lowCut (f.get p))).length }

/-!
## Nominal bins (`NominalPropertyView`)
-/

/-- The bin keys: `new Set(all.map(f => f.properties?.[p]))`, in first
occurrence order; an undefined value is itself a key. -/
def binKeys (all : List Feature) (p : String) : List (Option Val) :=
  jsSet (all.map (fun f => f.get p))

/-- `binCounts.get(k)`: how many of `all` fall in bin `k`. -/
def binTotal (all : List Feature) (p : String) (k : Option Val) : ℕ :=
  (all.filter (fun f => f.get p == k)).length

/-- `correctBinCounts.get(k)`: how many correct entities fall in bin `k`. -/
def binCorrectCount (correct : List Feature) (p : String) (k : Option Val) : ℕ :=
  (correct.filter (fun f => f.get p == k)).length

/-- The rendered `Math.round(100 * correct / total)` of a bin row; the
code has no zero guard, so a zero denominator would render `NaN`
(`0/0`) or `Infinity` (`c/0`, `c > 0`). -/
def binPercent (c t : ℕ) : PercentView :=
  if 0 < t then .shown (jsRound (100 * (c : ℚ) / t))
  else if c = 0 then .shownNaN else .shownInf

structure NominalSummary where
  covered : ℕ
  totalBins : ℕ
  rows : List (Option Val × ℕ × ℕ × PercentView)
deriving DecidableEq

/-- `NominalPropertyView` of the final version.  `correctBinCounts` is
keyed by the bins of `all` plus any further values occurring in
`correct`; `covered` counts its entries with a positive count, the bin
list iterates `binCounts.keys()`. -/
def NominalPropertyView (correct all : List Feature) (p : String) : NominalSummary :=
  { covered := ((jsSet (all.map (fun f => f.get p) ++ correct.map (fun f => f.get p))).filter
      (fun k => 0 < binCorrectCount correct p k)).length
    totalBins := (binKeys all p).length
    rows := (binKeys all p).map (fun k =>
      (k, binCorrectCount correct p k, binTotal all p k,
        binPercent (binCorrectCount correct p k) (binTotal all p k))) }

/-!
## Threshold filter (`FilteredCorrectView`)
-/

/-- Truncation toward zero, as in converting a finite decimal number to
its string and parsing the leading integer digits. -/
def truncQ (q : ℚ) : ℤ := if 0 ≤ q then q.floor else -(-q).floor

/-- Leading decimal digits of a string, `none` when there are none. -/
def parseDigits : List Char → Option ℕ → Option ℕ
  | [], acc => acc
  | c :: rest, acc =>
    if '0' ≤ c ∧ c ≤ '9' then
      parseDigits rest (some ((acc.getD 0) * 10 + (c.toNat - 48)))
    else acc

/-- `parseInt` on a string: skip leading whitespace, optional sign,
leading base-10 digits; `NaN` (`none`) when no digits are found. -/
def parseIntStr (s : List Char) : Option ℤ :=
  match s.dropWhile isJsWs with
  | '-' :: rest => (parseDigits rest none).map (fun n => -(n : ℤ))
  | '+' :: rest => (parseDigits rest none).map (fun n => (n : ℤ))
  | t => (parseDigits t none).map (fun n => (n : ℤ))

/-- `parseInt(feature.properties?.[p])`: `undefined` stringifies to
`"undefined"` and parses to `NaN`; a number stringifies to its decimal
form and parses back to its truncation (the scientific-format extremes
of very large magnitudes are outside the modeled domain); a string is
parsed directly. -/
def parseIntJs : Option Val → Option ℤ
  | none => none
  | some (.num q) => some (truncQ q)
  | some (.str s) => parseIntStr s.data

/-- An entity passes a list of `(attribute, minimum)` threshold
predicates when every attribute parses to a number at least the minimum
(`NaN >= c` is false, so an undefined or unparseable value fails). -/
def passesThresholds (preds : List (String × ℤ)) (f : Feature) : Bool :=
  preds.all (fun pr =>
    match parseIntJs (f.get pr.1) with
    | some n => decide (pr.2 ≤ n)
    | none => false)

/-- The threshold filter over an arbitrary predicate list. -/
def filteredView (preds : List (String × ℤ)) (correct all : List Feature) :
    List Feature × List Feature :=
  (correct.filter (passesThresholds preds), all.filter (passesThresholds preds))

/-- `FilteredCorrectView` of the final version: the conjunction of the
`prominenceFt` and `elevationFt` cutoffs, applied to `correct` and `all`. -/
def FilteredCorrectView (correct all : List Feature)
    (prominenceCutoff elevationCutoff : ℤ) : List Feature × List Feature :=
  let predicate := fun f =>
    (match parseIntJs (f.get "prominenceFt") with
      | some n => decide (prominenceCutoff ≤ n)
      | none => false) &&
    (match parseIntJs (f.get "elevationFt") with
      | some n => decide (elevationCutoff ≤ n)
      | none => false)
  (correct.filter predicate, all.filter predicate)

example : parseIntJs (some (.str "  5000 ft")) = some 5000 := by decide
example : parseIntJs (some (.str "abc")) = none := by decide
example : parseIntJs (some (.num (-57/10))) = some (-5) := by decide
example : parseIntJs none = none := by decide

/-!
## Auxiliary predicates and example data used in the statements below
-/

/-- The numeric value of `f.properties?.[p]`, defaulting to `0`; the
theorems use it only where the value is known to be a defined number. -/
def qOf (p : String) (f : Feature) : ℚ :=
  match f.get p with
  | some (.num q) => q
  | _ => 0

/-- The attribute is defined and holds a non-negative number. -/
def numNN (x : Option Val) : Bool :=
  match x with
  | some (.num q) => decide (0 ≤ q)
  | _ => false

/-- The attribute is defined and holds a number. -/
def isNumV (x : Option Val) : Bool :=
  match x with
  | some (.num _) => true
  | _ => false

/-- The sort key: the numeric value for the ascending direction, its
negation for the descending one. -/
def sortKey (p : String) (asc : Bool) (f : Feature) : ℚ :=
  if asc then qOf p f else -(qOf p f)

/-- A concrete entity of collection 1. -/
def featRainier : Feature := ⟨[("title", .str "Mount Rainier")]⟩

/-- A concrete entity of collection 2. -/
def featBaker : Feature := ⟨[("title", .str "Baker")]⟩

/-- One step of the matcher's disjunction: the entity has a defined
string value at `p` whose canonicalization equals the canonicalized
guess. -/
def matchHit (nfkd : List Char → List Char) (iwL : List (List Char))
    (gN : List Char) (f : Feature) (p : String) : Bool :=
  match f.get p with
  | some (.str s) => normalizeCore nfkd iwL s.data == gN
  | _ => false

/-!
## Helper lemmas
-/

theorem isMatchScan_all_none (nfkd : List Char → List Char) (iwL : List (List Char))
    (gN : List Char) (f : Feature) :
    ∀ l : List String, (∀ p ∈ l, f.get p = none) → isMatchScan nfkd iwL gN f l = some false
  | [], _ => rfl
  | p :: ps, h => by
    have hp : f.get p = none := h p (List.mem_cons_self p ps)
    have hps : ∀ q ∈ ps, f.get q = none := fun q hq => h q (List.mem_cons_of_mem p hq)
    simp only [isMatchScan, hp]
    exact isMatchScan_all_none nfkd iwL gN f ps hps

/-!
## Claim C5 — submit as a no-op / single insertion
-/

/-- Claim C5, counterexample: the claim says a whitespace-only raw guess
is a no-op, but the code only tests JavaScript truthiness, so `" "` is
truthy, not yet present, and gets inserted: the ledger changes. -/
theorem submit_whitespace_not_noop :
    handleSubmitGuesses (some " ") [] = [" "] ∧ handleSubmitGuesses (some " ") [] ≠ [] :=
  ⟨by decide, by decide⟩

/-- Claim C5 (amended): `submit` is a no-op when the raw guess is absent,
empty, or already present verbatim (case-sensitively, before
canonicalization); in every other case — including whitespace-only
strings, which are *not* rejected — exactly the raw string is added, at
the front; submitting the same raw string twice leaves the ledger
unchanged in size after the second submission. -/
theorem submit_ledger_spec (d : String) (g : List String) :
    handleSubmitGuesses none g = g ∧
    (d = "" ∨ d ∈ g → handleSubmitGuesses (some d) g = g) ∧
    (d ≠ "" → d ∉ g → handleSubmitGuesses (some d) g = d :: g) ∧
    (handleSubmitGuesses (some d) (handleSubmitGuesses (some d) g)).length
      = (handleSubmitGuesses (some d) g).length := by
  refine ⟨rfl, ?_, ?_, ?_⟩
  · intro h
    have : ¬(d ≠ "" ∧ d ∉ g) := by
      rcases h with h | h
      · exact fun hc => hc.1 h
      · exact fun hc => hc.2 h
    simp only [handleSubmitGuesses, if_neg this]
  · intro h1 h2
    simp only [handleSubmitGuesses, if_pos (And.intro h1 h2)]
  · by_cases hc : d ≠ "" ∧ d ∉ g
    · simp only [handleSubmitGuesses, if_pos hc]
      have : ¬(d ≠ "" ∧ d ∉ d :: g) := fun h => h.2 (List.mem_cons_self d g)
      simp only [if_neg this]
    · simp only [handleSubmitGuesses, if_neg hc]

/-- Claim C5, witness. -/
theorem submit_ledger_spec_witness :
    "Rainier" ≠ "" ∧ "Rainier" ∉ (["K2"] : List String) ∧
    handleSubmitGuesses (some "Rainier") ["K2"] = ["Rainier", "K2"] ∧
    (handleSubmitGuesses (some "Rainier")
        (handleSubmitGuesses (some "Rainier") ["K2"])).length
      = (handleSubmitGuesses (some "Rainier") ["K2"]).length :=
  ⟨by decide, by decide,
    (submit_ledger_spec "Rainier" ["K2"]).2.2.1 (by decide) (by decide),
    (submit_ledger_spec "Rainier" ["K2"]).2.2.2⟩

/-!
## Claim C10 — insertion position across versions
-/

/-- Claim C10: in the final version a new non-duplicate, non-empty guess
is inserted at the front of the ledger, the previous guesses keeping
their relative order, whereas the earliest versions appended at the
back. -/
theorem submit_insertion_order_spec (d : String) (g : List String)
    (h1 : d ≠ "") (h2 : d ∉ g) :
    handleSubmitGuesses (some d) g = d :: g ∧
    handleSubmitGuessesV0 (some d) g = g ++ [d] := by
  constructor
  · simp only [handleSubmitGuesses, if_pos (And.intro h1 h2)]
  · simp only [handleSubmitGuessesV0, if_pos (And.intro h1 h2)]

/-- Claim C10, witness. -/
theorem submit_insertion_order_spec_witness :
    "Adams" ≠ "" ∧ "Adams" ∉ (["Baker", "Hood"] : List String) ∧
    handleSubmitGuesses (some "Adams") ["Baker", "Hood"] = ["Adams", "Baker", "Hood"] ∧
    handleSubmitGuessesV0 (some "Adams") ["Baker", "Hood"] = ["Baker", "Hood", "Adams"] :=
  ⟨by decide, by decide,
    (submit_insertion_order_spec "Adams" ["Baker", "Hood"] (by decide) (by decide)).1,
    (submit_insertion_order_spec "Adams" ["Baker", "Hood"] (by decide) (by decide)).2⟩

/-!
## Claim C4 — totality of canonicalize / matcher on absent attributes
-/

/-- Claim C4, counterexample: `canonicalize(undefined)` does not return
the empty string — `undefined.trim()` throws a `TypeError` (modeled by
`none`), and the intermediate version's matcher, which canonicalizes
`answer.properties?.["title"]` without a definedness guard, accordingly
throws on an entity with no title instead of returning false. -/
theorem canonicalize_undefined_throws :
    jsNormalize id [] none ≠ some "" ∧
    isMatchTsx id "Rainier" ⟨[]⟩ = none ∧
    isMatchTsx id "Rainier" ⟨[]⟩ ≠ some false :=
  ⟨by decide, by decide, by decide⟩

/-- Claim C4 (amended): `canonicalize` is total and never fails on every
*string* input; an undefined/absent argument instead raises a
`TypeError` (the definedness guard lives in the final version's matcher,
not in `canonicalize`).  The final version's matcher applied to an
entity defining none of the configured title attributes raises no error
and simply yields no match. -/
theorem matcher_absent_attributes_safe (nfkd : List Char → List Char)
    (guess : String) (f : Feature) (title : String) (alts iw : List String)
    (h : ∀ p ∈ title :: alts, f.get p = none) :
    isMatch nfkd guess f title alts iw = some false ∧
    ∀ s : String, ∃ r, jsNormalize nfkd iw (some s) = some r :=
  ⟨isMatchScan_all_none nfkd (iw.map String.data)
      (normalizeCore nfkd (iw.map String.data) guess.data) f (title :: alts) h,
    fun s => ⟨normalizeStr nfkd iw s, rfl⟩⟩

/-- Claim C4, witness. -/
theorem matcher_absent_attributes_safe_witness :
    (∀ p ∈ ("title" :: ["altTitle"]), Feature.get ⟨[("elevationFt", .num 14411)]⟩ p = none) ∧
    isMatch id "Rainier" ⟨[("elevationFt", .num 14411)]⟩ "title" ["altTitle"] [] = some false ∧
    (∃ r, jsNormalize id [] (some "Mt. Rainier") = some r) :=
  ⟨by decide,
    (matcher_absent_attributes_safe id "Rainier" ⟨[("elevationFt", .num 14411)]⟩
      "title" ["altTitle"] [] (by decide)).1,
    (matcher_absent_attributes_safe id "Rainier" ⟨[("elevationFt", .num 14411)]⟩
      "title" ["altTitle"] [] (by decide)).2 "Mt. Rainier"⟩

/-!
## Claim C1 — collection swap and the Correct Set
-/

theorem mem_foldl_jsInsert {α : Type} [DecidableEq α] (x : α) :
    ∀ (l acc : List α), x ∈ l.foldl jsInsert acc ↔ x ∈ acc ∨ x ∈ l := by
  intro l
  induction l with
  | nil => intro acc; simp
  | cons b l ih =>
    intro acc
    rw [List.foldl_cons, ih]
    constructor
    · rintro (h | h)
      · by_cases hb : b ∈ acc
        · rw [jsInsert, if_pos hb] at h
          exact Or.inl h
        · rw [jsInsert, if_neg hb, List.mem_append] at h
          rcases h with h | h
          · exact Or.inl h
          · have hxb : x = b := by simpa using h
            exact Or.inr (hxb ▸ List.mem_cons_self b l)
      · exact Or.inr (List.mem_cons_of_mem b h)
    · rintro (h | h)
      · refine Or.inl ?_
        by_cases hb : b ∈ acc
        · rwa [jsInsert, if_pos hb]
        · rw [jsInsert, if_neg hb, List.mem_append]
          exact Or.inl h
      · rcases List.mem_cons.mp h with rfl | h
        · refine Or.inl ?_
          by_cases hb : x ∈ acc
          · rwa [jsInsert, if_pos hb]
          · rw [jsInsert, if_neg hb, List.mem_append]
            exact Or.inr (by simp)
        · exact Or.inr h

theorem mem_jsSet {α : Type} [DecidableEq α] (x : α) (l : List α) :
    x ∈ jsSet l ↔ x ∈ l := by
  rw [jsSet, mem_foldl_jsInsert]
  simp

theorem filterExc_mem (p : Feature → Option Bool) :
    ∀ (l r : List Feature), filterExc p l = some r →
      ∀ x, (x ∈ r ↔ x ∈ l ∧ p x = some true) := by
  intro l
  induction l with
  | nil =>
    intro r hr x
    simp only [filterExc, Option.some.injEq] at hr
    subst hr
    simp
  | cons f fs ih =>
    intro r hr x
    simp only [filterExc] at hr
    cases hp : p f with
    | none => rw [hp] at hr; exact absurd hr (by simp)
    | some b =>
      rw [hp] at hr
      cases hrec : filterExc p fs with
      | none => rw [hrec] at hr; exact absurd hr (by simp)
      | some r0 =>
        rw [hrec] at hr
        have hr2 : (if b = true then f :: r0 else r0) = r := Option.some.inj hr
        subst hr2
        have hx0 := ih r0 hrec x
        cases b with
        | true =>
          change x ∈ f :: r0 ↔ x ∈ f :: fs ∧ p x = some true
          constructor
          · intro hmem
            rcases List.mem_cons.mp hmem with rfl | h1
            · exact ⟨List.mem_cons_self x fs, hp⟩
            · obtain ⟨h2, h3⟩ := hx0.mp h1
              exact ⟨List.mem_cons_of_mem f h2, h3⟩
          · rintro ⟨h1, h2⟩
            rcases List.mem_cons.mp h1 with rfl | h1
            · exact List.mem_cons_self x r0
            · exact List.mem_cons_of_mem f (hx0.mpr ⟨h1, h2⟩)
        | false =>
          change x ∈ r0 ↔ x ∈ f :: fs ∧ p x = some true
          rw [hx0]
          constructor
          · rintro ⟨h1, h2⟩
            exact ⟨List.mem_cons_of_mem f h1, h2⟩
          · rintro ⟨h1, h2⟩
            rcases List.mem_cons.mp h1 with rfl | h1
            · rw [hp] at h2
              exact absurd h2 (by simp)
            · exact ⟨h1, h2⟩

theorem foldlM_filterExc_mem (P : String → Feature → Option Bool) (features : List Feature) :
    ∀ (gs : List String) (acc res : List Feature),
      gs.foldlM (fun acc g => (filterExc (P g) features).map (fun ans => acc ++ ans)) acc
        = some res →
      ∀ x, (x ∈ res ↔ x ∈ acc ∨ ∃ g ∈ gs, x ∈ features ∧ P g x = some true) := by
  intro gs
  induction gs with
  | nil =>
    intro acc res h x
    simp only [List.foldlM_nil] at h
    cases h
    simp
  | cons g gs ih =>
    intro acc res h x
    simp only [List.foldlM_cons] at h
    cases hflt : filterExc (P g) features with
    | none => rw [hflt] at h; exact absurd h (by simp)
    | some flt =>
      rw [hflt] at h
      replace h : List.foldlM
          (fun acc g => (filterExc (P g) features).map (fun ans => acc ++ ans)) (acc ++ flt) gs
          = some res := h
      have hmem := ih (acc ++ flt) res h x
      rw [hmem, List.mem_append, filterExc_mem (P g) features flt hflt x]
      constructor
      · rintro ((h1 | h1) | h1)
        · exact Or.inl h1
        · exact Or.inr ⟨g, List.mem_cons_self g gs, h1⟩
        · obtain ⟨g2, hg2, h2⟩ := h1
          exact Or.inr ⟨g2, List.mem_cons_of_mem g hg2, h2⟩
      · rintro (h1 | ⟨g2, hg2, h2⟩)
        · exact Or.inl (Or.inl h1)
        · rcases List.mem_cons.mp hg2 with rfl | hg2
          · exact Or.inl (Or.inr h2)
          · exact Or.inr ⟨g2, hg2, h2⟩

/-- Claim C1, counterexample: with stored guess `"Rainier"`, prior
Correct Set `[featRainier]`, and a newly loaded collection `[featBaker]`
in which nothing matches, the load leaves the Correct Set at
`[featRainier]` — an entity that is not a member of the new collection.
The stale match is carried over, not discarded. -/
theorem collection_swap_keeps_stale_matches :
    processServerFileCorrect id ["Rainier"] [featBaker] none [featRainier]
      = some [featRainier] ∧
    featRainier ∉ [featBaker] :=
  ⟨by decide, by decide⟩

/-- Claim C1 (amended): after a successful load, the resulting Correct
Set is the *union* of the matches of the stored guesses against the new
collection with the previous Correct Set: an entity belongs to the
result exactly when some stored guess matches it as a member of the new
collection, or when it already belonged to the previous Correct Set.
Stale members from a prior collection are carried over, not discarded
(and when no guess matches the new collection the previous Correct Set
is kept unchanged). -/
theorem processServerFile_correct_union (nfkd : List Char → List Char)
    (guesses : List String) (features : List Feature) (geoquiz : Option GeoquizParams)
    (correct newCorrect : List Feature)
    (h : processServerFileCorrect nfkd guesses features geoquiz correct = some newCorrect) :
    ∀ x, x ∈ newCorrect ↔
      (∃ g ∈ guesses, x ∈ features ∧
        isMatch nfkd g x (effTitle geoquiz) (effAlts geoquiz) (effIgnored geoquiz) = some true)
      ∨ x ∈ correct := by
  intro x
  rw [processServerFileCorrect] at h
  cases hA : guesses.foldlM (fun acc g =>
      (filterExc (fun f =>
        isMatch nfkd g f (effTitle geoquiz) (effAlts geoquiz) (effIgnored geoquiz))
        features).map (fun ans => acc ++ ans)) [] with
  | none => rw [hA] at h; exact absurd h (by simp)
  | some answers =>
    rw [hA] at h
    have h2 : (if answers.isEmpty then correct else jsSet (answers ++ correct)) = newCorrect :=
      Option.some.inj h
    subst h2
    have hmem := foldlM_filterExc_mem
      (fun g f => isMatch nfkd g f (effTitle geoquiz) (effAlts geoquiz) (effIgnored geoquiz))
      features guesses [] answers hA x
    simp only [List.not_mem_nil, false_or] at hmem
    by_cases he : answers.isEmpty
    · rw [if_pos he]
      have : answers = [] := List.isEmpty_iff.mp he
      subst this
      simp only [List.not_mem_nil, false_iff] at hmem
      simp [hmem]
    · rw [if_neg he, mem_jsSet, List.mem_append, hmem]

/-- Claim C1, witness. -/
theorem processServerFile_correct_union_witness :
    processServerFileCorrect id ["Rainier"] [featRainier]
        (some ⟨none, none, some ["mount"]⟩) [featBaker]
      = some [featRainier, featBaker] ∧
    (featRainier ∈ [featRainier, featBaker] ↔
      (∃ g ∈ ["Rainier"], featRainier ∈ [featRainier] ∧
        isMatch id g featRainier (effTitle (some ⟨none, none, some ["mount"]⟩))
          (effAlts (some ⟨none, none, some ["mount"]⟩))
          (effIgnored (some ⟨none, none, some ["mount"]⟩)) = some true)
      ∨ featRainier ∈ [featBaker]) :=
  ⟨by decide,
    processServerFile_correct_union id ["Rainier"] [featRainier]
      (some ⟨none, none, some ["mount"]⟩) [featBaker] [featRainier, featBaker]
      (by decide) featRainier⟩

/-!
## Claim C2 — the matcher is the disjunction over the attribute list
-/


theorem isMatchScan_eq_any (nfkd : List Char → List Char) (iwL : List (List Char))
    (gN : List Char) (f : Feature) :
    ∀ l : List String, (∀ p ∈ l, (f.get p).all Val.isStr = true) →
      isMatchScan nfkd iwL gN f l = some (l.any (matchHit nfkd iwL gN f)) := by
  intro l
  induction l with
  | nil =>
    intro _
    rfl
  | cons p ps ih =>
    intro h
    have hp := h p (List.mem_cons_self p ps)
    have hps : ∀ q ∈ ps, (f.get q).all Val.isStr = true :=
      fun q hq => h q (List.mem_cons_of_mem p hq)
    rw [List.any_cons]
    cases hg : f.get p with
    | none =>
      have hhit : matchHit nfkd iwL gN f p = false := by
        rw [matchHit, hg]
      simp only [isMatchScan, hg, hhit, Bool.false_or]
      exact ih hps
    | some v =>
      rw [hg] at hp
      cases v with
      | num q => exact absurd hp (by simp [Option.all, Val.isStr])
      | str s =>
        have hhit : matchHit nfkd iwL gN f p = (normalizeCore nfkd iwL s.data == gN) := by
          rw [matchHit, hg]
        simp only [isMatchScan, hg, hhit]
        by_cases heq : normalizeCore nfkd iwL s.data = gN
        · rw [if_pos heq]
          have : (normalizeCore nfkd iwL s.data == gN) = true := beq_iff_eq.mpr heq
          rw [this, Bool.true_or]
        · rw [if_neg heq, ih hps]
          have : (normalizeCore nfkd iwL s.data == gN) = false := by
            rw [beq_eq_false_iff_ne]
            exact heq
          rw [this, Bool.false_or]

theorem any_matchHit_iff (nfkd : List Char → List Char) (iwL : List (List Char))
    (gN : List Char) (f : Feature) (l : List String) :
    l.any (matchHit nfkd iwL gN f) = true ↔
      ∃ p ∈ l, ∃ s, f.get p = some (.str s) ∧ normalizeCore nfkd iwL s.data = gN := by
  rw [List.any_eq_true]
  constructor
  · rintro ⟨p, hp, hhit⟩
    rw [matchHit] at hhit
    cases hg : f.get p with
    | none => rw [hg] at hhit; exact absurd hhit (by simp)
    | some v =>
      rw [hg] at hhit
      cases v with
      | num q => exact absurd hhit (by simp)
      | str s => exact ⟨p, hp, s, hg, beq_iff_eq.mp hhit⟩
  · rintro ⟨p, hp, s, hg, he⟩
    refine ⟨p, hp, ?_⟩
    rw [matchHit, hg]
    exact beq_iff_eq.mpr he

/-- Claim C2: for string-valued (or absent) listed attributes, the final
version's matcher returns true exactly when some attribute of
`[titleAttribute, ...altTitleAttributes]` has a defined value whose
canonicalization equals the canonicalization of the guess; it returns
false when the entity defines none of the listed attributes; and the
result is unchanged under any permutation of the scanned attribute
list. -/
theorem isMatch_disjunction_spec (nfkd : List Char → List Char) (guess : String)
    (f : Feature) (title : String) (alts iw : List String)
    (hstr : ∀ p ∈ title :: alts, (f.get p).all Val.isStr = true) :
    (isMatch nfkd guess f title alts iw = some true ↔
      ∃ p ∈ title :: alts, ∃ s, f.get p = some (.str s) ∧
        normalizeStr nfkd iw s = normalizeStr nfkd iw guess) ∧
    ((∀ p ∈ title :: alts, f.get p = none) →
      isMatch nfkd guess f title alts iw = some false) ∧
    (∀ l2 : List String, (title :: alts).Perm l2 →
      isMatchScan nfkd (iw.map String.data)
        (normalizeCore nfkd (iw.map String.data) guess.data) f l2
        = isMatch nfkd guess f title alts iw) := by
  refine ⟨?_, ?_, ?_⟩
  · rw [isMatch, isMatchScan_eq_any nfkd (iw.map String.data)
      (normalizeCore nfkd (iw.map String.data) guess.data) f (title :: alts) hstr]
    rw [Option.some_inj, any_matchHit_iff]
    constructor
    · rintro ⟨p, hp, s, hg, he⟩
      refine ⟨p, hp, s, hg, ?_⟩
      rw [normalizeStr, normalizeStr, he]
    · rintro ⟨p, hp, s, hg, he⟩
      refine ⟨p, hp, s, hg, ?_⟩
      rw [normalizeStr, normalizeStr] at he
      exact congrArg String.data he
  · exact isMatchScan_all_none nfkd (iw.map String.data)
      (normalizeCore nfkd (iw.map String.data) guess.data) f (title :: alts)
  · intro l2 hperm
    have hstr2 : ∀ p ∈ l2, (f.get p).all Val.isStr = true :=
      fun p hp => hstr p (hperm.mem_iff.mpr hp)
    rw [isMatch, isMatchScan_eq_any nfkd (iw.map String.data)
        (normalizeCore nfkd (iw.map String.data) guess.data) f l2 hstr2,
      isMatchScan_eq_any nfkd (iw.map String.data)
        (normalizeCore nfkd (iw.map String.data) guess.data) f (title :: alts) hstr,
      Option.some_inj]
    cases hb : (title :: alts).any (matchHit nfkd (iw.map String.data)
        (normalizeCore nfkd (iw.map String.data) guess.data) f) with
    | true =>
      obtain ⟨p, hp, s, hg, he⟩ := (any_matchHit_iff _ _ _ _ _).mp hb
      exact (any_matchHit_iff _ _ _ _ _).mpr ⟨p, hperm.mem_iff.mp hp, s, hg, he⟩
    | false =>
      rw [← Bool.not_eq_true] at hb ⊢
      intro hcon
      apply hb
      obtain ⟨p, hp, s, hg, he⟩ := (any_matchHit_iff _ _ _ _ _).mp hcon
      exact (any_matchHit_iff _ _ _ _ _).mpr ⟨p, hperm.mem_iff.mpr hp, s, hg, he⟩

/-- Claim C2, witness. -/
theorem isMatch_disjunction_spec_witness :
    (∀ p ∈ ("title" :: ["altTitle"]),
      (Feature.get ⟨[("title", .str "K2"), ("altTitle", .str "Chhogori")]⟩ p).all Val.isStr
        = true) ∧
    (isMatch id "Chhogori" ⟨[("title", .str "K2"), ("altTitle", .str "Chhogori")]⟩
        "title" ["altTitle"] [] = some true ↔
      ∃ p ∈ ("title" :: ["altTitle"]), ∃ s,
        Feature.get ⟨[("title", .str "K2"), ("altTitle", .str "Chhogori")]⟩ p
          = some (.str s) ∧
        normalizeStr id [] s = normalizeStr id [] "Chhogori") :=
  ⟨by decide,
    (isMatch_disjunction_spec id "Chhogori"
      ⟨[("title", .str "K2"), ("altTitle", .str "Chhogori")]⟩
      "title" ["altTitle"] [] (by decide)).1⟩

/-!
## Claim C9 — threshold filter
-/

theorem passesThresholds_iff (preds : List (String × ℤ)) (f : Feature) :
    passesThresholds preds f = true ↔
      ∀ pr ∈ preds, ∃ n, parseIntJs (f.get pr.1) = some n ∧ pr.2 ≤ n := by
  rw [passesThresholds, List.all_eq_true]
  constructor
  · intro h pr hpr
    have := h pr hpr
    cases hv : parseIntJs (f.get pr.1) with
    | none => rw [hv] at this; exact absurd this (by simp)
    | some n =>
      rw [hv] at this
      exact ⟨n, rfl, of_decide_eq_true this⟩
  · intro h pr hpr
    obtain ⟨n, hn, hle⟩ := h pr hpr
    rw [hn]
    exact decide_eq_true hle

/-- Claim C9: the threshold filter keeps an entity exactly when every
predicate's attribute parses to a defined number at least the predicate's
minimum; an entity with an undefined value for any filtered attribute is
excluded from both outputs regardless of the other predicates (and no
error is raised — the filter is total); the outputs are sublists of the
inputs, which are not mutated; and the concrete `FilteredCorrectView` is
this filter at the `prominenceFt`/`elevationFt` predicate pair. -/
theorem threshold_filter_spec (preds : List (String × ℤ)) (correct all : List Feature)
    (x : Feature) (pc ec : ℤ) :
    (x ∈ (filteredView preds correct all).2 ↔
      x ∈ all ∧ ∀ pr ∈ preds, ∃ n, parseIntJs (x.get pr.1) = some n ∧ pr.2 ≤ n) ∧
    ((∃ pr ∈ preds, x.get pr.1 = none) →
      x ∉ (filteredView preds correct all).1 ∧ x ∉ (filteredView preds correct all).2) ∧
    (filteredView preds correct all).1.Sublist correct ∧
    (filteredView preds correct all).2.Sublist all ∧
    FilteredCorrectView correct all pc ec
      = filteredView [("prominenceFt", pc), ("elevationFt", ec)] correct all := by
  have hfail : (∃ pr ∈ preds, x.get pr.1 = none) → passesThresholds preds x = false := by
    rintro ⟨pr, hpr, hnone⟩
    rw [← Bool.not_eq_true, passesThresholds_iff]
    intro hall
    obtain ⟨n, hn, _⟩ := hall pr hpr
    rw [hnone] at hn
    exact absurd hn (by simp [parseIntJs])
  refine ⟨?_, ?_, List.filter_sublist correct, List.filter_sublist all, ?_⟩
  · rw [filteredView]
    simp only [List.mem_filter, passesThresholds_iff]
  · intro hund
    have hf := hfail hund
    constructor
    · rw [filteredView]
      simp only [List.mem_filter, hf]
      rintro ⟨-, h⟩
      exact absurd h (by simp)
    · rw [filteredView]
      simp only [List.mem_filter, hf]
      rintro ⟨-, h⟩
      exact absurd h (by simp)
  · rw [FilteredCorrectView, filteredView]
    have hpred : ∀ f : Feature,
        ((match parseIntJs (f.get "prominenceFt") with
          | some n => decide (pc ≤ n)
          | none => false) &&
         (match parseIntJs (f.get "elevationFt") with
          | some n => decide (ec ≤ n)
          | none => false))
        = passesThresholds [("prominenceFt", pc), ("elevationFt", ec)] f := by
      intro f
      rw [passesThresholds]
      simp only [List.all_cons, List.all_nil, Bool.and_true]
    rw [Prod.mk.injEq]
    exact ⟨List.filter_congr (fun f _ => hpred f), List.filter_congr (fun f _ => hpred f)⟩

/-- Claim C9, witness: the entity lacking `elevationFt` is excluded from
both outputs although its prominence satisfies the other predicate. -/
theorem threshold_filter_spec_witness :
    (∃ pr ∈ [("prominenceFt", (300 : ℤ)), ("elevationFt", (0 : ℤ))],
      Feature.get ⟨[("prominenceFt", .num 5000)]⟩ pr.1 = none) ∧
    ⟨[("prominenceFt", .num 5000)]⟩ ∉
      (filteredView [("prominenceFt", (300 : ℤ)), ("elevationFt", (0 : ℤ))]
        [⟨[("prominenceFt", .num 5000)]⟩] [⟨[("prominenceFt", .num 5000)]⟩]).1 ∧
    ⟨[("prominenceFt", .num 5000)]⟩ ∉
      (filteredView [("prominenceFt", (300 : ℤ)), ("elevationFt", (0 : ℤ))]
        [⟨[("prominenceFt", .num 5000)]⟩] [⟨[("prominenceFt", .num 5000)]⟩]).2 :=
  ⟨by decide,
    ((threshold_filter_spec [("prominenceFt", (300 : ℤ)), ("elevationFt", (0 : ℤ))]
      [⟨[("prominenceFt", .num 5000)]⟩] [⟨[("prominenceFt", .num 5000)]⟩]
      ⟨[("prominenceFt", .num 5000)]⟩ 300 0).2.1 (by decide)).1,
    ((threshold_filter_spec [("prominenceFt", (300 : ℤ)), ("elevationFt", (0 : ℤ))]
      [⟨[("prominenceFt", .num 5000)]⟩] [⟨[("prominenceFt", .num 5000)]⟩]
      ⟨[("prominenceFt", .num 5000)]⟩ 300 0).2.1 (by decide)).2⟩

/-!
## Claim C6 — the rational weighted-sum view
-/

theorem numNN_isNumV {x : Option Val} (h : numNN x = true) : isNumV x = true := by
  cases x with
  | none => exact absurd h (by simp [numNN])
  | some v =>
    cases v with
    | str s => exact absurd h (by simp [numNN])
    | num q => rfl

theorem numNN_nonneg {x : Option Val} (h : numNN x = true) :
    ∃ q : ℚ, x = some (.num q) ∧ 0 ≤ q := by
  cases x with
  | none => exact absurd h (by simp [numNN])
  | some v =>
    cases v with
    | str s => exact absurd h (by simp [numNN])
    | num q => exact ⟨q, rfl, of_decide_eq_true h⟩

theorem sumNum_loop (p : String) :
    ∀ fs : List Feature, (∀ f ∈ fs, isNumV (f.get p) = true) →
      ∀ acc : ℚ,
        fs.foldl (fun acc f =>
          match acc, f.get p with
          | some a, some (.num b) => some (a + b)
          | _, _ => none) (some acc)
        = some (acc + (fs.map (qOf p)).sum) := by
  intro fs
  induction fs with
  | nil =>
    intro _ acc
    simp
  | cons f fs ih =>
    intro h acc
    have hf := h f (List.mem_cons_self f fs)
    have hfs : ∀ g ∈ fs, isNumV (g.get p) = true :=
      fun g hg => h g (List.mem_cons_of_mem f hg)
    cases hg : f.get p with
    | none => rw [hg] at hf; exact absurd hf (by simp [isNumV])
    | some v =>
      cases v with
      | str s => rw [hg] at hf; exact absurd hf (by simp [isNumV])
      | num q =>
        have hq : qOf p f = q := by rw [qOf, hg]
        simp only [List.foldl_cons, hg, List.map_cons, List.sum_cons, ih hfs (acc + q), hq]
        rw [add_assoc]

theorem sumNum_eq_sum (p : String) (fs : List Feature)
    (h : ∀ f ∈ fs, isNumV (f.get p) = true) :
    sumNum fs p = some ((fs.map (qOf p)).sum) := by
  rw [sumNum, sumNum_loop p fs h 0, zero_add]

/-- Claim C6: over a collection whose entities all carry a defined,
non-negative numeric value for the attribute (correct and all alike),
the weighted-sum view reports exactly
`round(100 * sumCorrect / sumAll)` and omits the percentage when
`sumAll = 0`; it never renders `NaN`, `Infinity`, or a division error. -/
theorem rational_view_spec (correct all : List Feature) (p : String)
    (hall : ∀ f ∈ all, numNN (f.get p) = true)
    (hcor : ∀ f ∈ correct, numNN (f.get p) = true) :
    sumNum all p = some ((all.map (qOf p)).sum) ∧
    sumNum correct p = some ((correct.map (qOf p)).sum) ∧
    ((all.map (qOf p)).sum = 0 → RationalPropertyView correct all p = .omitted) ∧
    ((all.map (qOf p)).sum ≠ 0 → RationalPropertyView correct all p
      = .shown (jsRound (100 * (correct.map (qOf p)).sum / (all.map (qOf p)).sum))) ∧
    RationalPropertyView correct all p ≠ .shownNaN ∧
    RationalPropertyView correct all p ≠ .shownInf := by
  have hA : sumNum all p = some ((all.map (qOf p)).sum) :=
    sumNum_eq_sum p all (fun f hf => numNN_isNumV (hall f hf))
  have hC : sumNum correct p = some ((correct.map (qOf p)).sum) :=
    sumNum_eq_sum p correct (fun f hf => numNN_isNumV (hcor f hf))
  have hnn : 0 ≤ (all.map (qOf p)).sum := by
    apply List.sum_nonneg
    intro a ha
    obtain ⟨f, hf, rfl⟩ := List.mem_map.mp ha
    obtain ⟨q, hq, hq0⟩ := numNN_nonneg (hall f hf)
    rw [qOf, hq]
    exact hq0
  have hview : RationalPropertyView correct all p =
      (if 0 < (all.map (qOf p)).sum then
        PercentView.shown (jsRound ((correct.map (qOf p)).sum / (all.map (qOf p)).sum * 100))
      else .omitted) := by
    rw [RationalPropertyView, hA, hC]
  refine ⟨hA, hC, ?_, ?_, ?_, ?_⟩
  · intro h0
    rw [hview, h0]
    simp
  · intro h0
    have hpos : 0 < (all.map (qOf p)).sum := lt_of_le_of_ne hnn (Ne.symm h0)
    rw [hview, if_pos hpos]
    congr 1
    apply congrArg jsRound
    field_simp
    ring
  · rw [hview]
    by_cases hpos : 0 < (all.map (qOf p)).sum
    · rw [if_pos hpos]; simp
    · rw [if_neg hpos]; simp
  · rw [hview]
    by_cases hpos : 0 < (all.map (qOf p)).sum
    · rw [if_pos hpos]; simp
    · rw [if_neg hpos]; simp

/-- Claim C6, witness: prominences 750 and 250, the 250 one guessed —
the view reports 25 percent. -/
theorem rational_view_spec_witness :
    (∀ f ∈ [(⟨[("prominenceFt", .num 750)]⟩ : Feature), ⟨[("prominenceFt", .num 250)]⟩],
      numNN (f.get "prominenceFt") = true) ∧
    (∀ f ∈ [(⟨[("prominenceFt", .num 250)]⟩ : Feature)],
      numNN (f.get "prominenceFt") = true) ∧
    RationalPropertyView [(⟨[("prominenceFt", .num 250)]⟩ : Feature)]
      [(⟨[("prominenceFt", .num 750)]⟩ : Feature), ⟨[("prominenceFt", .num 250)]⟩]
      "prominenceFt" = .shown 25 := by
  have h := rational_view_spec
    [(⟨[("prominenceFt", .num 250)]⟩ : Feature)]
    [(⟨[("prominenceFt", .num 750)]⟩ : Feature), ⟨[("prominenceFt", .num 250)]⟩]
    "prominenceFt" (by decide) (by decide)
  refine ⟨by decide, by decide, ?_⟩
  rw [h.2.2.2.1 (by decide)]
  decide

/-!
## Claim C8 — nominal bin table
-/

theorem nodup_foldl_jsInsert {α : Type} [DecidableEq α] :
    ∀ (l acc : List α), acc.Nodup → (l.foldl jsInsert acc).Nodup := by
  intro l
  induction l with
  | nil => intro acc h; exact h
  | cons b l ih =>
    intro acc h
    rw [List.foldl_cons]
    apply ih
    by_cases hb : b ∈ acc
    · rwa [jsInsert, if_pos hb]
    · rw [jsInsert, if_neg hb]
      rw [List.nodup_append]
      exact ⟨h, List.nodup_singleton b, by simpa using hb⟩

theorem jsSet_nodup {α : Type} [DecidableEq α] (l : List α) : (jsSet l).Nodup :=
  nodup_foldl_jsInsert l [] List.nodup_nil

theorem foldl_jsInsert_absorb {α : Type} [DecidableEq α] :
    ∀ (l acc : List α), (∀ x ∈ l, x ∈ acc) → l.foldl jsInsert acc = acc := by
  intro l
  induction l with
  | nil => intro acc _; rfl
  | cons b l ih =>
    intro acc h
    rw [List.foldl_cons, jsInsert, if_pos (h b (List.mem_cons_self b l))]
    exact ih acc (fun x hx => h x (List.mem_cons_of_mem b hx))

theorem jsSet_append_absorb {α : Type} [DecidableEq α] (l m : List α)
    (h : ∀ x ∈ m, x ∈ l) : jsSet (l ++ m) = jsSet l := by
  rw [jsSet, List.foldl_append]
  exact foldl_jsInsert_absorb m (jsSet l) (fun x hx => (mem_jsSet x l).mpr (h x hx))

/-- Claim C8: the bin table of the nominal view partitions `all` by raw
attribute value — the bin keys are duplicate-free and every entity's
value (including `undefined`, which forms its own never-dropped bin) is
among them; with the Correct Set inside the collection, the view reports
the number of bins with a positive correct count out of the number of
distinct bins; every listed bin has a positive total, and its rendered
percentage is exactly `round(100 * correctCount / totalCount)` — the
`totalCount = 0` division (`NaN`) is unreachable for the bins shown. -/
theorem nominal_view_spec (correct all : List Feature) (p : String)
    (hsub : ∀ f ∈ correct, f ∈ all) :
    (binKeys all p).Nodup ∧
    (∀ f ∈ all, f.get p ∈ binKeys all p) ∧
    ((∃ f ∈ all, f.get p = none) → none ∈ binKeys all p ∧ 0 < binTotal all p none) ∧
    (NominalPropertyView correct all p).covered
      = ((binKeys all p).filter (fun k => 0 < binCorrectCount correct p k)).length ∧
    (NominalPropertyView correct all p).totalBins = (binKeys all p).length ∧
    (∀ k ∈ binKeys all p, 0 < binTotal all p k ∧
      binPercent (binCorrectCount correct p k) (binTotal all p k)
        = .shown (jsRound (100 * (binCorrectCount correct p k : ℚ)
            / (binTotal all p k : ℚ)))) ∧
    (NominalPropertyView correct all p).rows
      = (binKeys all p).map (fun k =>
          (k, binCorrectCount correct p k, binTotal all p k,
            binPercent (binCorrectCount correct p k) (binTotal all p k))) := by
  have hmem : ∀ f ∈ all, f.get p ∈ binKeys all p := by
    intro f hf
    rw [binKeys, mem_jsSet]
    exact List.mem_map_of_mem (fun f => f.get p) hf
  have htot : ∀ k ∈ binKeys all p, 0 < binTotal all p k := by
    intro k hk
    rw [binKeys, mem_jsSet] at hk
    obtain ⟨f, hf, rfl⟩ := List.mem_map.mp hk
    rw [binTotal]
    apply List.length_pos.mpr
    apply List.ne_nil_of_mem (a := f)
    rw [List.mem_filter]
    exact ⟨hf, by simp⟩
  refine ⟨jsSet_nodup _, hmem, ?_, ?_, rfl, ?_, rfl⟩
  · rintro ⟨f, hf, hn⟩
    refine ⟨hn ▸ hmem f hf, ?_⟩
    rw [binTotal]
    apply List.length_pos.mpr
    apply List.ne_nil_of_mem (a := f)
    rw [List.mem_filter]
    exact ⟨hf, by rw [hn]; rfl⟩
  · rw [NominalPropertyView]
    have habs : jsSet (all.map (fun f => f.get p) ++ correct.map (fun f => f.get p))
        = jsSet (all.map (fun f => f.get p)) := by
      apply jsSet_append_absorb
      intro x hx
      obtain ⟨f, hf, rfl⟩ := List.mem_map.mp hx
      exact List.mem_map_of_mem (fun f => f.get p) (hsub f hf)
    rw [habs]
    rfl
  · intro k hk
    refine ⟨htot k hk, ?_⟩
    rw [binPercent, if_pos (htot k hk)]

/-- Claim C8, witness: countries `US, US, CA` with the first `US` entity
guessed — bin table `US ↦ (1, 2)`, `CA ↦ (0, 1)`, 1 of 2 bins covered. -/
theorem nominal_view_spec_witness :
    (∀ f ∈ [(⟨[("country", .str "US"), ("title", .str "A")]⟩ : Feature)],
      f ∈ [(⟨[("country", .str "US"), ("title", .str "A")]⟩ : Feature),
           ⟨[("country", .str "US"), ("title", .str "B")]⟩,
           ⟨[("country", .str "CA"), ("title", .str "C")]⟩]) ∧
    (NominalPropertyView [(⟨[("country", .str "US"), ("title", .str "A")]⟩ : Feature)]
      [(⟨[("country", .str "US"), ("title", .str "A")]⟩ : Feature),
       ⟨[("country", .str "US"), ("title", .str "B")]⟩,
       ⟨[("country", .str "CA"), ("title", .str "C")]⟩] "country").covered = 1 ∧
    (NominalPropertyView [(⟨[("country", .str "US"), ("title", .str "A")]⟩ : Feature)]
      [(⟨[("country", .str "US"), ("title", .str "A")]⟩ : Feature),
       ⟨[("country", .str "US"), ("title", .str "B")]⟩,
       ⟨[("country", .str "CA"), ("title", .str "C")]⟩] "country").totalBins = 2 := by
  have h := nominal_view_spec
    [(⟨[("country", .str "US"), ("title", .str "A")]⟩ : Feature)]
    [(⟨[("country", .str "US"), ("title", .str "A")]⟩ : Feature),
     ⟨[("country", .str "US"), ("title", .str "B")]⟩,
     ⟨[("country", .str "CA"), ("title", .str "C")]⟩] "country" (by decide)
  refine ⟨by decide, ?_, ?_⟩
  · rw [h.2.2.2.1]
    decide
  · rw [h.2.2.2.2.1]
    decide

/-!
## Claim C7 — ranked top/bottom view
-/

theorem insertSorted_perm (le : Feature → Feature → Bool) (f : Feature) :
    ∀ l, (insertSorted le f l).Perm (f :: l)
  | [] => List.Perm.refl _
  | g :: gs => by
    rw [insertSorted]
    by_cases h : le f g
    · rw [if_pos h]
    · rw [if_neg h]
      exact ((insertSorted_perm le f gs).cons g).trans (List.Perm.swap f g gs)

theorem sortBy_perm (p : String) (asc : Bool) : ∀ l, (sortBy l p asc).Perm l
  | [] => List.Perm.refl _
  | f :: l => by
    rw [sortBy, List.foldr_cons]
    exact (insertSorted_perm (cmpLe p asc) f (sortBy l p asc)).trans
      ((sortBy_perm p asc l).cons f)

theorem optAll_isNumV {x : Option Val} (hs : x.isSome = true)
    (hn : x.all Val.isNum = true) : isNumV x = true := by
  cases x with
  | none => exact absurd hs (by simp)
  | some v =>
    cases v with
    | str s => exact absurd hn (by simp [Val.isNum])
    | num q => rfl

theorem isNumV_get {x : Option Val} (h : isNumV x = true) :
    ∃ q : ℚ, x = some (.num q) := by
  cases x with
  | none => exact absurd h (by simp [isNumV])
  | some v =>
    cases v with
    | str s => exact absurd h (by simp [isNumV])
    | num q => exact ⟨q, rfl⟩

theorem cmpLe_eq_decide (p : String) (asc : Bool) (a b : Feature)
    (ha : isNumV (a.get p) = true) (hb : isNumV (b.get p) = true) :
    cmpLe p asc a b = decide (sortKey p asc a ≤ sortKey p asc b) := by
  obtain ⟨qa, hqa⟩ := isNumV_get ha
  obtain ⟨qb, hqb⟩ := isNumV_get hb
  have hva : qOf p a = qa := by rw [qOf, hqa]
  have hvb : qOf p b = qb := by rw [qOf, hqb]
  have hnum : ∀ x y : ℚ, jsLeVal (some (.num x)) (some (.num y)) = decide (x ≤ y) := by
    intro x y
    rw [jsLeVal]
    by_cases heq : (some (Val.num x) : Option Val) = some (.num y)
    · have hxy : x = y := Val.num.inj (Option.some.inj heq)
      subst hxy
      simp
    · have hbeq : ((some (Val.num x) : Option Val) == some (.num y)) = false :=
        beq_eq_false_iff_ne.mpr heq
      rw [hbeq, Bool.false_or, jsLtVal, decide_eq_decide]
      have hne : x ≠ y := fun h => heq (by rw [h])
      exact ⟨le_of_lt, fun h => lt_of_le_of_ne h hne⟩
  cases asc with
  | true =>
    rw [cmpLe, if_pos rfl, hqa, hqb, hnum qa qb]
    rw [sortKey, sortKey, if_pos rfl, if_pos rfl, hva, hvb]
  | false =>
    rw [cmpLe, if_neg (by simp), hqa, hqb, hnum qb qa]
    rw [sortKey, sortKey, if_neg (by simp), if_neg (by simp), hva, hvb,
      decide_eq_decide]
    constructor
    · intro h; exact neg_le_neg h
    · intro h; exact le_of_neg_le_neg h

theorem pairwise_insertSorted (p : String) (asc : Bool) (f : Feature) :
    ∀ l, isNumV (f.get p) = true → (∀ g ∈ l, isNumV (g.get p) = true) →
      l.Pairwise (fun a b => sortKey p asc a ≤ sortKey p asc b) →
      (insertSorted (cmpLe p asc) f l).Pairwise
        (fun a b => sortKey p asc a ≤ sortKey p asc b) := by
  intro l
  induction l with
  | nil =>
    intro _ _ _
    exact List.pairwise_singleton _ f
  | cons g gs ih =>
    intro hf hl hpw
    have hg : isNumV (g.get p) = true := hl g (List.mem_cons_self g gs)
    have hgs : ∀ x ∈ gs, isNumV (x.get p) = true :=
      fun x hx => hl x (List.mem_cons_of_mem g hx)
    rw [List.pairwise_cons] at hpw
    obtain ⟨hgall, hpgs⟩ := hpw
    rw [insertSorted]
    by_cases hle : cmpLe p asc f g = true
    · rw [if_pos hle]
      rw [cmpLe_eq_decide p asc f g hf hg] at hle
      have hfg : sortKey p asc f ≤ sortKey p asc g := of_decide_eq_true hle
      rw [List.pairwise_cons]
      constructor
      · intro b hb
        rcases List.mem_cons.mp hb with rfl | hb
        · exact hfg
        · exact le_trans hfg (hgall b hb)
      · rw [List.pairwise_cons]
        exact ⟨hgall, hpgs⟩
    · rw [if_neg hle]
      rw [cmpLe_eq_decide p asc f g hf hg] at hle
      have hgf : sortKey p asc g ≤ sortKey p asc f := by
        have : ¬ sortKey p asc f ≤ sortKey p asc g := by
          intro hc
          exact hle (decide_eq_true hc)
        exact le_of_not_le this
      rw [List.pairwise_cons]
      constructor
      · intro b hb
        have hb2 : b ∈ f :: gs := (insertSorted_perm (cmpLe p asc) f gs).mem_iff.mp hb
        rcases List.mem_cons.mp hb2 with rfl | hb2
        · exact hgf
        · exact hgall b hb2
      · exact ih hf hgs hpgs

theorem pairwise_sortBy (p : String) (asc : Bool) :
    ∀ l, (∀ f ∈ l, isNumV (f.get p) = true) →
      (sortBy l p asc).Pairwise (fun a b => sortKey p asc a ≤ sortKey p asc b) := by
  intro l
  induction l with
  | nil =>
    intro _
    exact List.Pairwise.nil
  | cons f fs ih =>
    intro h
    have hf : isNumV (f.get p) = true := h f (List.mem_cons_self f fs)
    have hfs : ∀ g ∈ fs, isNumV (g.get p) = true :=
      fun g hg => h g (List.mem_cons_of_mem f hg)
    rw [sortBy, List.foldr_cons]
    apply pairwise_insertSorted p asc f _ hf
    · intro g hg
      exact hfs g ((sortBy_perm p asc fs).mem_iff.mp hg)
    · exact ih hfs

theorem definedOn_isNumV (all : List Feature) (p : String)
    (hall : ∀ f ∈ all, (f.get p).all Val.isNum = true) :
    ∀ f ∈ definedOn all p, isNumV (f.get p) = true := by
  intro f hf
  rw [definedOn, List.mem_filter] at hf
  exact optAll_isNumV hf.2 (hall f hf.1)

theorem sortBy_defined_cut (all : List Feature) (p : String) (asc : Bool)
    (hall : ∀ f ∈ all, (f.get p).all Val.isNum = true)
    (hne : definedOn all p ≠ []) :
    ∃ f : Feature,
      (sortBy (definedOn all p) p asc).get? (min 9 ((definedOn all p).length - 1))
        = some f ∧
      f ∈ definedOn all p ∧
      f.get p = some (.num (qOf p f)) ∧
      ((sortBy (definedOn all p) p asc).map (qOf p)).get?
          (min 9 ((definedOn all p).length - 1))
        = some (qOf p f) := by
  have hperm := sortBy_perm p asc (definedOn all p)
  have hlen : (sortBy (definedOn all p) p asc).length = (definedOn all p).length :=
    hperm.length_eq
  have hpos : 0 < (definedOn all p).length := List.length_pos.mpr hne
  have hkn : min 9 ((definedOn all p).length - 1)
      < (sortBy (definedOn all p) p asc).length := by
    rw [hlen]
    exact lt_of_le_of_lt (min_le_right _ _) (Nat.sub_lt hpos Nat.one_pos)
  refine ⟨(sortBy (definedOn all p) p asc).get ⟨_, hkn⟩, List.get?_eq_get hkn, ?_, ?_, ?_⟩
  · exact hperm.mem_iff.mp (List.get_mem _ _ hkn)
  · have hmem : (sortBy (definedOn all p) p asc).get ⟨_, hkn⟩ ∈ definedOn all p :=
      hperm.mem_iff.mp (List.get_mem _ _ hkn)
    obtain ⟨q, hq⟩ := isNumV_get (definedOn_isNumV all p hall _ hmem)
    rw [hq, qOf, hq]
  · rw [List.get?_map, List.get?_eq_get hkn]
    rfl

theorem filter_defined_count (l : List Feature) (p : String) (pr : Feature → Bool) :
    ((definedOn l p).filter pr).length
      = (l.filter (fun f => (f.get p).isSome && pr f)).length := by
  rw [definedOn, List.filter_filter]
  congr 1
  apply List.filter_congr
  intro f _
  exact Bool.and_comm (pr f) (f.get p).isSome

/-- Claim C7: the ranking view excludes entities with an undefined value
from both directions entirely — each reported count ranges over the
entities with a defined value that is at-or-beyond the direction's cutoff
(`>=` the high cutoff, `<=` the low cutoff), and the displayed extreme
lists draw only from defined correct entities; each cutoff is the value
at index `min(9, n-1)` (the 10th-ranked value, or the last when fewer
than ten exist) of the sorted sequence of all defined values, exhibited
here as a sorted permutation of those values.  Because the counts are
value-threshold counts, ties at the cutoff make the reported `M` exceed
ten. -/
theorem ranked_list_spec (correct all : List Feature) (p : String)
    (hall : ∀ f ∈ all, (f.get p).all Val.isNum = true)
    (_hcor : ∀ f ∈ correct, (f.get p).all Val.isNum = true)
    (hne : definedOn all p ≠ []) :
    ((RankedList correct all p).mTop
      = (all.filter (fun f =>
          (f.get p).isSome && jsGeVal (f.get p) (RankedList correct all p).cutHigh)).length ∧
     (RankedList correct all p).nTop
      = (correct.filter (fun f =>
          (f.get p).isSome && jsGeVal (f.get p) (RankedList correct all p).cutHigh)).length ∧
     (RankedList correct all p).mBot
      = (all.filter (fun f =>
          (f.get p).isSome && jsGeVal (RankedList correct all p).cutLow (f.get p))).length ∧
     (RankedList correct all p).nBot
      = (correct.filter (fun f =>
          (f.get p).isSome && jsGeVal (RankedList correct all p).cutLow (f.get p))).length) ∧
    (∀ f ∈ (RankedList correct all p).highestCorrectTen,
      (f.get p).isSome = true ∧ f ∈ correct) ∧
    (∀ f ∈ (RankedList correct all p).lowestCorrectTen,
      (f.get p).isSome = true ∧ f ∈ correct) ∧
    (∃ qs : List ℚ, qs.Perm ((definedOn all p).map (qOf p)) ∧
      qs.Pairwise (fun a b => b ≤ a) ∧
      (RankedList correct all p).cutHigh
        = (qs.get? (min 9 ((definedOn all p).length - 1))).map Val.num ∧
      (RankedList correct all p).cutHigh.isSome = true) ∧
    (∃ qs : List ℚ, qs.Perm ((definedOn all p).map (qOf p)) ∧
      qs.Pairwise (fun a b => a ≤ b) ∧
      (RankedList correct all p).cutLow
        = (qs.get? (min 9 ((definedOn all p).length - 1))).map Val.num ∧
      (RankedList correct all p).cutLow.isSome = true) := by
  have htake : ∀ (asc : Bool) (f : Feature),
      f ∈ (sortBy (definedOn correct p) p asc).take 10 →
      (f.get p).isSome = true ∧ f ∈ correct := by
    intro asc f hf
    have h1 : f ∈ sortBy (definedOn correct p) p asc := List.mem_of_mem_take hf
    have h2 : f ∈ definedOn correct p := (sortBy_perm p asc _).mem_iff.mp h1
    rw [definedOn, List.mem_filter] at h2
    exact ⟨h2.2, h2.1⟩
  refine ⟨⟨?_, ?_, ?_, ?_⟩, ?_, ?_, ?_, ?_⟩
  · exact (rfl : (RankedList correct all p).mTop = _).trans (filter_defined_count all p _)
  · exact (rfl : (RankedList correct all p).nTop = _).trans (filter_defined_count correct p _)
  · exact (rfl : (RankedList correct all p).mBot = _).trans (filter_defined_count all p _)
  · exact (rfl : (RankedList correct all p).nBot = _).trans (filter_defined_count correct p _)
  · exact htake false
  · exact htake true
  · obtain ⟨f, hget, hfmem, hfval, hqs⟩ := sortBy_defined_cut all p false hall hne
    refine ⟨(sortBy (definedOn all p) p false).map (qOf p),
      (sortBy_perm p false _).map (qOf p), ?_, ?_, ?_⟩
    · have hpw := pairwise_sortBy p false (definedOn all p) (definedOn_isNumV all p hall)
      rw [List.pairwise_map]
      refine hpw.imp ?_
      intro a b h
      rw [sortKey, sortKey, if_neg (by simp), if_neg (by simp)] at h
      exact le_of_neg_le_neg h
    · have hch : (RankedList correct all p).cutHigh
          = ((sortBy (definedOn all p) p false).get?
              (min 9 ((definedOn all p).length - 1))).bind (fun f => f.get p) := rfl
      rw [hch, hget, hqs]
      simp only [Option.bind_eq_bind, Option.some_bind, Option.map_some']
      exact hfval
    · have hch : (RankedList correct all p).cutHigh
          = ((sortBy (definedOn all p) p false).get?
              (min 9 ((definedOn all p).length - 1))).bind (fun f => f.get p) := rfl
      rw [hch, hget]
      simp only [Option.bind_eq_bind, Option.some_bind, hfval, Option.isSome_some]
  · obtain ⟨f, hget, hfmem, hfval, hqs⟩ := sortBy_defined_cut all p true hall hne
    refine ⟨(sortBy (definedOn all p) p true).map (qOf p),
      (sortBy_perm p true _).map (qOf p), ?_, ?_, ?_⟩
    · have hpw := pairwise_sortBy p true (definedOn all p) (definedOn_isNumV all p hall)
      rw [List.pairwise_map]
      refine hpw.imp ?_
      intro a b h
      rw [sortKey, sortKey, if_pos rfl, if_pos rfl] at h
      exact h
    · have hcl : (RankedList correct all p).cutLow
          = ((sortBy (definedOn all p) p true).get?
              (min 9 ((definedOn all p).length - 1))).bind (fun f => f.get p) := rfl
      rw [hcl, hget, hqs]
      simp only [Option.bind_eq_bind, Option.some_bind, Option.map_some']
      exact hfval
    · have hcl : (RankedList correct all p).cutLow
          = ((sortBy (definedOn all p) p true).get?
              (min 9 ((definedOn all p).length - 1))).bind (fun f => f.get p) := rfl
      rw [hcl, hget]
      simp only [Option.bind_eq_bind, Option.some_bind, hfval, Option.isSome_some]

/-- Claim C7, witness: prominences 12, 3, 1 with the 3-entity guessed;
fewer than ten entities, so the cutoffs are the last-ranked values. -/
theorem ranked_list_spec_witness :
    (∀ f ∈ [(⟨[("prominenceFt", .num 12)]⟩ : Feature), ⟨[("prominenceFt", .num 3)]⟩,
        ⟨[("prominenceFt", .num 1)]⟩],
      (f.get "prominenceFt").all Val.isNum = true) ∧
    (∀ f ∈ [(⟨[("prominenceFt", .num 3)]⟩ : Feature)],
      (f.get "prominenceFt").all Val.isNum = true) ∧
    definedOn [(⟨[("prominenceFt", .num 12)]⟩ : Feature), ⟨[("prominenceFt", .num 3)]⟩,
      ⟨[("prominenceFt", .num 1)]⟩] "prominenceFt" ≠ [] ∧
    (RankedList [(⟨[("prominenceFt", .num 3)]⟩ : Feature)]
      [(⟨[("prominenceFt", .num 12)]⟩ : Feature), ⟨[("prominenceFt", .num 3)]⟩,
       ⟨[("prominenceFt", .num 1)]⟩] "prominenceFt").mTop
      = ([(⟨[("prominenceFt", .num 12)]⟩ : Feature), ⟨[("prominenceFt", .num 3)]⟩,
          ⟨[("prominenceFt", .num 1)]⟩].filter (fun f =>
          (f.get "prominenceFt").isSome && jsGeVal (f.get "prominenceFt")
            (RankedList [(⟨[("prominenceFt", .num 3)]⟩ : Feature)]
              [(⟨[("prominenceFt", .num 12)]⟩ : Feature), ⟨[("prominenceFt", .num 3)]⟩,
               ⟨[("prominenceFt", .num 1)]⟩] "prominenceFt").cutHigh)).length :=
  ⟨by decide, by decide, by decide,
    (ranked_list_spec [(⟨[("prominenceFt", .num 3)]⟩ : Feature)]
      [(⟨[("prominenceFt", .num 12)]⟩ : Feature), ⟨[("prominenceFt", .num 3)]⟩,
       ⟨[("prominenceFt", .num 1)]⟩] "prominenceFt"
      (by decide) (by decide) (by decide)).1.1⟩

/-!
## Claim C3 — canonicalization idempotence

The remaining lemmas analyze the `normalize` pipeline itself: what
`split(/\s+/)` produces, how `join(" ")` and `trim` interact with it, and
which tokens survive a second pass.
-/

theorem toLower_tokenChar {c : Char} (h : tokenChar c = true) : Char.toLower c = c := by
  rw [tokenChar] at h
  unfold Char.toLower
  show (if c.toNat ≥ 65 ∧ c.toNat ≤ 90 then Char.ofNat (c.toNat + 32) else c) = c
  rw [if_neg]
  simp only [Bool.or_eq_true, Bool.and_eq_true, decide_eq_true_eq] at h
  rintro ⟨h1, h2⟩
  have h1n : 65 ≤ c.val.toNat := h1
  have h2n : c.val.toNat ≤ 90 := h2
  rcases h with ⟨ha, hb⟩ | ⟨ha, hb⟩
  · have ha2 : (97 : Nat) ≤ c.val.toNat := ha
    omega
  · have hb2 : c.val.toNat ≤ (57 : Nat) := hb
    omega

theorem dropWhile_head_false (p : Char → Bool) :
    ∀ l : List Char, (∀ c, l.head? = some c → p c = false) → l.dropWhile p = l := by
  intro l h
  cases l with
  | nil => rfl
  | cons a t =>
    rw [List.dropWhile_cons, if_neg]
    rw [h a rfl]
    simp

theorem jsTrim_eq_self (cs : List Char)
    (h1 : ∀ c, cs.head? = some c → isJsWs c = false)
    (h2 : ∀ c, cs.getLast? = some c → isJsWs c = false) : jsTrim cs = cs := by
  rw [jsTrim, dropWhile_head_false isJsWs cs h1, dropWhile_head_false isJsWs cs.reverse
    (fun c hc => h2 c (by rwa [List.head?_reverse] at hc)), List.reverse_reverse]

theorem jsTrim_cons_ws {c : Char} (h : isJsWs c = true) (cs : List Char) :
    jsTrim (c :: cs) = jsTrim cs := by
  rw [jsTrim, jsTrim, List.dropWhile_cons, if_pos (by rw [h])]

theorem dropWhile_append_chars (p : Char → Bool) :
    ∀ l1 l2 : List Char, (l1 ++ l2).dropWhile p
      = if (l1.dropWhile p).isEmpty then l2.dropWhile p else l1.dropWhile p ++ l2 := by
  intro l1
  induction l1 with
  | nil =>
    intro l2
    rw [List.nil_append, List.dropWhile_nil]
    rfl
  | cons a t ih =>
    intro l2
    by_cases hp : p a = true
    · simp only [List.cons_append, List.dropWhile_cons, hp, if_true]
      exact ih l2
    · rw [Bool.not_eq_true] at hp
      simp only [List.cons_append, List.dropWhile_cons, hp, Bool.false_eq_true, if_false]
      simp

theorem jsTrim_append_ws (cs : List Char) : jsTrim (cs ++ [' ']) = jsTrim cs := by
  rw [jsTrim, jsTrim, dropWhile_append_chars]
  by_cases he : (cs.dropWhile isJsWs).isEmpty
  · rw [if_pos he]
    have : cs.dropWhile isJsWs = [] := List.isEmpty_iff.mp he
    rw [this]
    rfl
  · rw [if_neg he]
    rw [List.reverse_append, List.reverse_singleton]
    show (((' ' :: (cs.dropWhile isJsWs).reverse)).dropWhile isJsWs).reverse = _
    rw [List.dropWhile_cons, if_pos (by rfl)]

theorem splitWsGo_absorb :
    ∀ u : List Char, (∀ c ∈ u, isJsWs c = false) →
      ∀ rest acc : List Char,
        splitWsGo (u ++ rest) (some acc) = splitWsGo rest (some (u.reverse ++ acc)) := by
  intro u
  induction u with
  | nil =>
    intro _ rest acc
    rw [List.nil_append, List.reverse_nil, List.nil_append]
  | cons c u ih =>
    intro h rest acc
    have hc : isJsWs c = false := h c (List.mem_cons_self c u)
    have hu : ∀ x ∈ u, isJsWs x = false := fun x hx => h x (List.mem_cons_of_mem c hx)
    rw [List.cons_append]
    simp only [splitWsGo, hc, Bool.false_eq_true, if_false]
    rw [ih hu rest (c :: acc), List.reverse_cons, List.append_assoc, List.singleton_append]

theorem splitWsGo_none_eq_some_nil (c : Char) (rest : List Char) (hc : isJsWs c = false) :
    splitWsGo (c :: rest) none = splitWsGo (c :: rest) (some []) := by
  simp only [splitWsGo, hc, Bool.false_eq_true, if_false]

theorem splitWsGo_chars (P : Char → Prop) :
    ∀ (cs : List Char) (st : Option (List Char)),
      (∀ c ∈ cs, isJsWs c = false → P c) →
      (∀ acc, st = some acc → ∀ c ∈ acc, P c) →
      ∀ t ∈ splitWsGo cs st, ∀ c ∈ t, P c := by
  intro cs
  induction cs with
  | nil =>
    intro st hcs hacc t ht c hc
    cases st with
    | some acc =>
      have hta : t = acc.reverse := by
        have : splitWsGo [] (some acc) = [acc.reverse] := rfl
        rw [this] at ht
        simpa using ht
      subst hta
      exact hacc acc rfl c (List.mem_reverse.mp hc)
    | none =>
      have hta : t = [] := by
        have : splitWsGo [] (none : Option (List Char)) = [[]] := rfl
        rw [this] at ht
        simpa using ht
      subst hta
      exact absurd hc (List.not_mem_nil c)
  | cons a rest ih =>
    intro st hcs hacc t ht c hc
    have hrest : ∀ x ∈ rest, isJsWs x = false → P x :=
      fun x h1 h2 => hcs x (List.mem_cons_of_mem a h1) h2
    have hempty : ∀ acc : List Char, (none : Option (List Char)) = some acc →
        ∀ x ∈ acc, P x := by
      intro acc h
      exact absurd h (by simp)
    cases st with
    | some acc =>
      by_cases ha : isJsWs a = true
      · simp only [splitWsGo, ha, if_true] at ht
        rcases List.mem_cons.mp ht with rfl | ht2
        · exact hacc acc rfl c (List.mem_reverse.mp hc)
        · exact ih none hrest hempty t ht2 c hc
      · rw [Bool.not_eq_true] at ha
        simp only [splitWsGo, ha, Bool.false_eq_true, if_false] at ht
        refine ih (some (a :: acc)) hrest ?_ t ht c hc
        intro acc2 heq x hx
        have : a :: acc = acc2 := Option.some.inj heq
        subst this
        rcases List.mem_cons.mp hx with rfl | hx2
        · exact hcs x (List.mem_cons_self x rest) ha
        · exact hacc acc rfl x hx2
    | none =>
      by_cases ha : isJsWs a = true
      · simp only [splitWsGo, ha, if_true] at ht
        exact ih none hrest hempty t ht c hc
      · rw [Bool.not_eq_true] at ha
        simp only [splitWsGo, ha, Bool.false_eq_true, if_false] at ht
        refine ih (some [a]) hrest ?_ t ht c hc
        intro acc2 heq x hx
        have : [a] = acc2 := Option.some.inj heq
        subst this
        have : x = a := by simpa using hx
        subst this
        exact hcs x (List.mem_cons_self x rest) ha

theorem splitWsGo_shape :
    ∀ cs : List Char,
      (∀ acc : List Char, ∃ w us e2, splitWsGo cs (some acc) = ((acc.reverse ++ w) :: us) ++ e2 ∧
        (∀ u ∈ us, u ≠ []) ∧ (e2 = [] ∨ e2 = [[]])) ∧
      (∃ us e2, splitWsGo cs none = us ++ e2 ∧
        (∀ u ∈ us, u ≠ []) ∧ (e2 = [] ∨ e2 = [[]])) := by
  intro cs
  induction cs with
  | nil =>
    constructor
    · intro acc
      refine ⟨[], [], [], ?_, by simp, Or.inl rfl⟩
      rw [List.append_nil, List.append_nil]
      rfl
    · exact ⟨[], [[]], rfl, by simp, Or.inr rfl⟩
  | cons a rest ih =>
    obtain ⟨ihs, ihn⟩ := ih
    constructor
    · intro acc
      by_cases ha : isJsWs a = true
      · obtain ⟨us, e2, heq, hus, he2⟩ := ihn
        refine ⟨[], us, e2, ?_, hus, he2⟩
        simp only [splitWsGo, ha, if_true, heq, List.append_nil]
        rw [List.cons_append]
      · obtain ⟨w, us, e2, heq, hus, he2⟩ := ihs (a :: acc)
        refine ⟨a :: w, us, e2, ?_, hus, he2⟩
        rw [Bool.not_eq_true] at ha
        simp only [splitWsGo, ha, Bool.false_eq_true, if_false, heq, List.reverse_cons,
          List.append_assoc, List.singleton_append]
    · by_cases ha : isJsWs a = true
      · obtain ⟨us, e2, heq, hus, he2⟩ := ihn
        exact ⟨us, e2, by simp only [splitWsGo, ha, if_true, heq], hus, he2⟩
      · obtain ⟨w, us, e2, heq, hus, he2⟩ := ihs [a]
        refine ⟨(a :: w) :: us, e2, ?_, ?_, he2⟩
        · rw [Bool.not_eq_true] at ha
          simp only [splitWsGo, ha, Bool.false_eq_true, if_false, heq, List.reverse_singleton,
            List.singleton_append, List.cons_append, List.nil_append]
        · intro u hu
          rcases List.mem_cons.mp hu with rfl | hu2
          · exact List.cons_ne_nil a w
          · exact hus u hu2

theorem sjoin_cons_ne (t : List Char) (ts : List (List Char)) (h : ts ≠ []) :
    sjoin (t :: ts) = t ++ ' ' :: sjoin ts := by
  cases ts with
  | nil => exact absurd rfl h
  | cons u ts => rfl

theorem sjoin_append_nil_tok (ts : List (List Char)) (h : ts ≠ []) :
    sjoin (ts ++ [[]]) = sjoin ts ++ [' '] := by
  induction ts with
  | nil => exact absurd rfl h
  | cons t ts ih =>
    cases ts with
    | nil => rfl
    | cons u ts2 =>
      rw [List.cons_append, sjoin_cons_ne t ((u :: ts2) ++ [[]]) (by simp),
        sjoin_cons_ne t (u :: ts2) (by simp), ih (by simp)]
      rw [List.append_assoc]
      rfl

theorem sjoin_last (us : List (List Char)) (hne : us ≠ []) (hnil : ∀ u ∈ us, u ≠ [])
    (hws : ∀ u ∈ us, ∀ c ∈ u, isJsWs c = false) :
    ∃ Y d, sjoin us = Y ++ [d] ∧ isJsWs d = false := by
  induction us with
  | nil => exact absurd rfl hne
  | cons u us ih =>
    cases us with
    | nil =>
      have hu : u ≠ [] := hnil u (List.mem_cons_self u [])
      refine ⟨u.dropLast, u.getLast hu, ?_, ?_⟩
      · show u = _
        rw [List.dropLast_append_getLast hu]
      · exact hws u (List.mem_cons_self u []) (u.getLast hu) (List.getLast_mem hu)
    | cons v us2 =>
      obtain ⟨Y, d, hY, hd⟩ := ih (by simp)
        (fun x hx => hnil x (List.mem_cons_of_mem u hx))
        (fun x hx => hws x (List.mem_cons_of_mem u hx))
      refine ⟨u ++ ' ' :: Y, d, ?_, hd⟩
      rw [sjoin_cons_ne u (v :: us2) (by simp), hY, List.append_assoc]
      rfl

theorem sjoin_head (us : List (List Char)) (c : Char) (v : List Char)
    (h : us ≠ [] → True) : ∃ T, sjoin ((c :: v) :: us) = c :: T := by
  cases us with
  | nil => exact ⟨v, rfl⟩
  | cons w ws => exact ⟨v ++ ' ' :: sjoin (w :: ws), rfl⟩

theorem sjoin_mem (c : Char) :
    ∀ us : List (List Char), c ∈ sjoin us → c = ' ' ∨ ∃ u ∈ us, c ∈ u := by
  intro us
  induction us with
  | nil =>
    intro h
    exact absurd h (List.not_mem_nil c)
  | cons u us ih =>
    intro h
    cases us with
    | nil =>
      exact Or.inr ⟨u, List.mem_cons_self u [], h⟩
    | cons v us2 =>
      rw [sjoin_cons_ne u (v :: us2) (by simp), List.mem_append] at h
      rcases h with h | h
      · exact Or.inr ⟨u, List.mem_cons_self u _, h⟩
      · rcases List.mem_cons.mp h with rfl | h2
        · exact Or.inl rfl
        · rcases ih h2 with h3 | ⟨w, hw, hc⟩
          · exact Or.inl h3
          · exact Or.inr ⟨w, List.mem_cons_of_mem u hw, hc⟩

theorem splitWs_sjoin :
    ∀ us : List (List Char), us ≠ [] → (∀ u ∈ us, u ≠ []) →
      (∀ u ∈ us, ∀ c ∈ u, isJsWs c = false) → splitWs (sjoin us) = us := by
  intro us
  induction us with
  | nil =>
    intro h
    exact absurd rfl h
  | cons u us ih =>
    intro _ hne hws
    have hu : u ≠ [] := hne u (List.mem_cons_self u us)
    have huw : ∀ c ∈ u, isJsWs c = false := hws u (List.mem_cons_self u us)
    cases us with
    | nil =>
      show splitWs u = [u]
      rw [splitWs]
      calc splitWsGo u (some []) = splitWsGo (u ++ []) (some []) := by rw [List.append_nil]
        _ = splitWsGo [] (some (u.reverse ++ [])) := splitWsGo_absorb u huw [] []
        _ = [u] := by
              have h0 : splitWsGo [] (some (u.reverse ++ []))
                  = [(u.reverse ++ []).reverse] := rfl
              rw [h0, List.append_nil, List.reverse_reverse]
    | cons v us2 =>
      rw [splitWs, sjoin_cons_ne u (v :: us2) (by simp),
        splitWsGo_absorb u huw (' ' :: sjoin (v :: us2)) []]
      simp only [splitWsGo, show isJsWs ' ' = true from rfl, if_true, List.append_nil,
        List.reverse_reverse]
      congr 1
      have hv : v ≠ [] := hne v (List.mem_cons_of_mem u (List.mem_cons_self v us2))
      obtain ⟨c, v2, rfl⟩ : ∃ c v2, v = c :: v2 := by
        cases v with
        | nil => exact absurd rfl hv
        | cons c v2 => exact ⟨c, v2, rfl⟩
      obtain ⟨T, hT⟩ := sjoin_head us2 c v2 (fun _ => trivial)
      have hc : isJsWs c = false :=
        hws (c :: v2) (List.mem_cons_of_mem u (List.mem_cons_self _ us2)) c
          (List.mem_cons_self c v2)
      rw [hT, splitWsGo_none_eq_some_nil c T hc, ← hT]
      exact ih (by simp) (fun x hx => hne x (List.mem_cons_of_mem u hx))
        (fun x hx => hws x (List.mem_cons_of_mem u hx))

theorem map_self {α : Type} (f : α → α) :
    ∀ l : List α, (∀ a ∈ l, f a = a) → l.map f = l := by
  intro l
  induction l with
  | nil => intro _; rfl
  | cons a t ih =>
    intro h
    rw [List.map_cons, h a (List.mem_cons_self a t),
      ih (fun x hx => h x (List.mem_cons_of_mem a hx))]

theorem trim_sjoin_shape (e1 us e2 : List (List Char))
    (he1 : e1 = [] ∨ e1 = [[]]) (he2 : e2 = [] ∨ e2 = [[]])
    (hnil : ∀ u ∈ us, u ≠ []) (hws : ∀ u ∈ us, ∀ c ∈ u, isJsWs c = false) :
    jsTrim (sjoin (e1 ++ (us ++ e2))) = sjoin us := by
  by_cases hus : us = []
  · subst hus
    rcases he1 with rfl | rfl <;> rcases he2 with rfl | rfl <;> decide
  · have hbase : jsTrim (sjoin us) = sjoin us := by
      obtain ⟨v, us2, rfl⟩ : ∃ v us2, us = v :: us2 := by
        cases us with
        | nil => exact absurd rfl hus
        | cons v us2 => exact ⟨v, us2, rfl⟩
      obtain ⟨c, v2, rfl⟩ : ∃ c v2, v = c :: v2 := by
        have hv := hnil _ (List.mem_cons_self _ us2)
        cases v with
        | nil => exact absurd rfl hv
        | cons c v2 => exact ⟨c, v2, rfl⟩
      obtain ⟨T, hT⟩ := sjoin_head us2 c v2 (fun _ => trivial)
      obtain ⟨Y, d, hY, hd⟩ := sjoin_last ((c :: v2) :: us2) (by simp) hnil hws
      apply jsTrim_eq_self
      · intro z hz
        rw [hT] at hz
        have hzc : c = z := by simpa using hz
        subst hzc
        exact hws (c :: v2) (List.mem_cons_self _ us2) c (List.mem_cons_self c v2)
      · intro z hz
        rw [hY, List.getLast?_concat] at hz
        have hzd : d = z := by simpa using hz
        subst hzd
        exact hd
    have hstep2 : jsTrim (sjoin (us ++ e2)) = sjoin us := by
      rcases he2 with rfl | rfl
      · rw [List.append_nil]
        exact hbase
      · rw [sjoin_append_nil_tok us hus, jsTrim_append_ws]
        exact hbase
    rcases he1 with rfl | rfl
    · rw [List.nil_append]
      exact hstep2
    · have hne : us ++ e2 ≠ [] := by
        cases us with
        | nil => exact absurd rfl hus
        | cons v us2 => simp
      have h1 : ([[]] ++ (us ++ e2) : List (List Char)) = [] :: (us ++ e2) := rfl
      rw [h1, sjoin_cons_ne [] (us ++ e2) hne, List.nil_append,
        jsTrim_cons_ws (show isJsWs ' ' = true from rfl)]
      exact hstep2

theorem foldAbbrev_ne_nil {t : List Char} (h : t ≠ []) : foldAbbrev t ≠ [] := by
  rw [foldAbbrev]
  by_cases h1 : t = ['s', 't']
  · rw [if_pos h1]
    simp
  · rw [if_neg h1]
    by_cases h2 : t = ['m', 't']
    · rw [if_pos h2]
      simp
    · rw [if_neg h2]
      exact h

theorem foldAbbrev_chars {t : List Char}
    (h : ∀ c ∈ t, tokenChar c = true ∧ isJsWs c = false) :
    ∀ c ∈ foldAbbrev t, tokenChar c = true ∧ isJsWs c = false := by
  rw [foldAbbrev]
  by_cases h1 : t = ['s', 't']
  · rw [if_pos h1]
    intro c hc
    fin_cases hc <;> exact ⟨by decide, by decide⟩
  · rw [if_neg h1]
    by_cases h2 : t = ['m', 't']
    · rw [if_pos h2]
      intro c hc
      fin_cases hc <;> exact ⟨by decide, by decide⟩
    · rw [if_neg h2]
      exact h

theorem foldAbbrev_stable (iw : List (List Char)) (hs : ['s', 'a', 'i', 'n', 't'] ∉ iw)
    (hm : ['m', 'o', 'u', 'n', 't'] ∉ iw) (t : List Char) (ht : t ∉ iw) :
    foldAbbrev t ∉ iw ∧ foldAbbrev (foldAbbrev t) = foldAbbrev t := by
  by_cases h1 : t = ['s', 't']
  · have hft : foldAbbrev t = ['s', 'a', 'i', 'n', 't'] := by rw [foldAbbrev, if_pos h1]
    rw [hft]
    exact ⟨hs, by decide⟩
  · by_cases h2 : t = ['m', 't']
    · have hft : foldAbbrev t = ['m', 'o', 'u', 'n', 't'] := by
        rw [foldAbbrev, if_neg h1, if_pos h2]
      rw [hft]
      exact ⟨hm, by decide⟩
    · have hft : foldAbbrev t = t := by rw [foldAbbrev, if_neg h1, if_neg h2]
      rw [hft]
      exact ⟨ht, hft⟩

theorem toks_shape (iw : List (List Char)) (hs : ['s', 'a', 'i', 'n', 't'] ∉ iw)
    (hm : ['m', 'o', 'u', 'n', 't'] ∉ iw) (x : List Char)
    (hx : ∀ c ∈ x, keepChar c = true) :
    ∃ e1 us e2, ((splitWs x).filter (fun t => !(iw.contains t))).map foldAbbrev
        = e1 ++ (us ++ e2) ∧
      (e1 = [] ∨ e1 = [[]]) ∧ (e2 = [] ∨ e2 = [[]]) ∧
      (∀ u ∈ us, u ≠ [] ∧ (∀ c ∈ u, tokenChar c = true ∧ isJsWs c = false) ∧
        iw.contains u = false ∧ foldAbbrev u = u) := by
  have hchar : ∀ t ∈ splitWs x, ∀ c ∈ t, tokenChar c = true ∧ isJsWs c = false := by
    apply splitWsGo_chars
    · intro c hc hwsc
      refine ⟨?_, hwsc⟩
      have hk := hx c hc
      rw [keepChar, hwsc, Bool.or_false] at hk
      exact hk
    · intro acc hacc c hc
      have : ([] : List Char) = acc := Option.some.inj hacc
      subst this
      exact absurd hc (List.not_mem_nil c)
  obtain ⟨w, us0, e2a, hsplit0, hus0, he2a⟩ := (splitWsGo_shape x).1 []
  rw [List.reverse_nil, List.nil_append] at hsplit0
  have hsplit : splitWs x = (w :: us0) ++ e2a := hsplit0
  have hmemw : w ∈ splitWs x := by
    rw [hsplit]
    exact List.mem_append_left e2a (List.mem_cons_self w us0)
  have hmemus0 : ∀ u ∈ us0, u ∈ splitWs x := by
    intro u hu
    rw [hsplit]
    exact List.mem_append_left e2a (List.mem_cons_of_mem w hu)
  have husprops : ∀ u ∈ (us0.filter (fun t => !(iw.contains t))).map foldAbbrev,
      u ≠ [] ∧ (∀ c ∈ u, tokenChar c = true ∧ isJsWs c = false) ∧
        iw.contains u = false ∧ foldAbbrev u = u := by
    intro u hu
    obtain ⟨t, ht, rfl⟩ := List.mem_map.mp hu
    rw [List.mem_filter] at ht
    obtain ⟨htmem, htq⟩ := ht
    have htnin : t ∉ iw := by simpa using htq
    have hstab := foldAbbrev_stable iw hs hm t htnin
    exact ⟨foldAbbrev_ne_nil (hus0 t htmem), foldAbbrev_chars (hchar t (hmemus0 t htmem)),
      by simpa using hstab.1, hstab.2⟩
  have hE2 : ((e2a.filter (fun t => !(iw.contains t))).map foldAbbrev = []) ∨
      ((e2a.filter (fun t => !(iw.contains t))).map foldAbbrev = [[]]) := by
    rcases he2a with rfl | rfl
    · exact Or.inl rfl
    · by_cases hq : (!(iw.contains ([] : List Char))) = true
      · refine Or.inr ?_
        rw [List.filter_cons, if_pos hq, List.filter_nil, List.map_cons, List.map_nil,
          show foldAbbrev [] = [] from by decide]
      · refine Or.inl ?_
        rw [List.filter_cons, if_neg hq, List.filter_nil, List.map_nil]
  by_cases hqw : (!(iw.contains w)) = true
  · by_cases hw : w = []
    · subst hw
      refine ⟨[[]], (us0.filter (fun t => !(iw.contains t))).map foldAbbrev,
        (e2a.filter (fun t => !(iw.contains t))).map foldAbbrev, ?_, Or.inr rfl, hE2, husprops⟩
      rw [hsplit, List.filter_append, List.filter_cons, if_pos hqw, List.map_append,
        List.map_cons, show foldAbbrev [] = [] from by decide]
      rfl
    · refine ⟨[], foldAbbrev w :: (us0.filter (fun t => !(iw.contains t))).map foldAbbrev,
        (e2a.filter (fun t => !(iw.contains t))).map foldAbbrev, ?_, Or.inl rfl, hE2, ?_⟩
      · rw [hsplit, List.filter_append, List.filter_cons, if_pos hqw, List.map_append,
          List.map_cons]
        rfl
      · intro u hu
        rcases List.mem_cons.mp hu with rfl | hu2
        · have hwnin : w ∉ iw := by simpa using hqw
          have hstab := foldAbbrev_stable iw hs hm w hwnin
          exact ⟨foldAbbrev_ne_nil hw, foldAbbrev_chars (hchar w hmemw),
            by simpa using hstab.1, hstab.2⟩
        · exact husprops u hu2
  · refine ⟨[], (us0.filter (fun t => !(iw.contains t))).map foldAbbrev,
      (e2a.filter (fun t => !(iw.contains t))).map foldAbbrev, ?_, Or.inl rfl, hE2, husprops⟩
    rw [hsplit, List.filter_append, List.filter_cons, if_neg hqw, List.map_append]
    rfl

theorem normalize_second_pass (nfkd : List Char → List Char) (iw : List (List Char))
    (hn : ∀ cs : List Char, (∀ c ∈ cs, tokenChar c = true ∨ c = ' ') → nfkd cs = cs)
    (e1 us e2 : List (List Char))
    (he1 : e1 = [] ∨ e1 = [[]]) (he2 : e2 = [] ∨ e2 = [[]])
    (hus : ∀ u ∈ us, u ≠ [] ∧ (∀ c ∈ u, tokenChar c = true ∧ isJsWs c = false) ∧
        iw.contains u = false ∧ foldAbbrev u = u) :
    normalizeCore nfkd iw (sjoin (e1 ++ (us ++ e2)))
      = jsTrim (sjoin (e1 ++ (us ++ e2))) := by
  have husnil : ∀ u ∈ us, u ≠ [] := fun u hu => (hus u hu).1
  have husws : ∀ u ∈ us, ∀ c ∈ u, isJsWs c = false :=
    fun u hu c hc => ((hus u hu).2.1 c hc).2
  have hustok : ∀ u ∈ us, ∀ c ∈ u, tokenChar c = true :=
    fun u hu c hc => ((hus u hu).2.1 c hc).1
  have htr : jsTrim (sjoin (e1 ++ (us ++ e2))) = sjoin us :=
    trim_sjoin_shape e1 us e2 he1 he2 husnil husws
  rw [htr]
  simp only [normalizeCore]
  rw [htr]
  have hzchars : ∀ c ∈ sjoin us, tokenChar c = true ∨ c = ' ' := by
    intro c hc
    rcases sjoin_mem c us hc with h | ⟨u, hu, hcu⟩
    · exact Or.inr h
    · exact Or.inl (hustok u hu c hcu)
  have hlow : (sjoin us).map Char.toLower = sjoin us := by
    apply map_self
    intro c hc
    rcases hzchars c hc with h | rfl
    · exact toLower_tokenChar h
    · decide
  rw [hlow, hn (sjoin us) hzchars]
  have hkeep : (sjoin us).filter keepChar = sjoin us := by
    rw [List.filter_eq_self]
    intro c hc
    rcases hzchars c hc with h | rfl
    · rw [keepChar, h, Bool.true_or]
    · decide
  rw [hkeep]
  by_cases husne : us = []
  · subst husne
    have h0 : sjoin ([] : List (List Char)) = [] := rfl
    rw [h0]
    have h1 : splitWs ([] : List Char) = [[]] := rfl
    rw [h1]
    by_cases hq : (!(iw.contains ([] : List Char))) = true
    · rw [List.filter_cons, if_pos hq, List.filter_nil, List.map_cons, List.map_nil,
        show foldAbbrev [] = [] from by decide]
      rfl
    · rw [List.filter_cons, if_neg hq, List.filter_nil, List.map_nil]
      rfl
  · rw [splitWs_sjoin us husne husnil husws]
    have hfq : us.filter (fun t => !(iw.contains t)) = us := by
      rw [List.filter_eq_self]
      intro u hu
      rw [(hus u hu).2.2.1]
      rfl
    rw [hfq, map_self foldAbbrev us (fun u hu => (hus u hu).2.2.2)]

theorem normalizeCore_double (nfkd : List Char → List Char) (iw : List (List Char))
    (s : List Char)
    (hs : ['s', 'a', 'i', 'n', 't'] ∉ iw) (hm : ['m', 'o', 'u', 'n', 't'] ∉ iw)
    (hn : ∀ cs : List Char, (∀ c ∈ cs, tokenChar c = true ∨ c = ' ') → nfkd cs = cs) :
    normalizeCore nfkd iw (normalizeCore nfkd iw s) = jsTrim (normalizeCore nfkd iw s) := by
  obtain ⟨e1, us, e2, htoks, he1, he2, hus⟩ := toks_shape iw hs hm
    ((nfkd ((jsTrim s).map Char.toLower)).filter keepChar)
    (fun c hc => List.of_mem_filter hc)
  have hr : normalizeCore nfkd iw s = sjoin (e1 ++ (us ++ e2)) := by
    simp only [normalizeCore]
    rw [htoks]
  rw [hr]
  exact normalize_second_pass nfkd iw hn e1 us e2 he1 he2 hus

/-- Claim C3, counterexample: `canonicalize` is not idempotent.  With
`ignoredWords = ["saint"]`, the abbreviation folding sends `"st"` to
`"saint"`, which a second pass then drops as an ignored word; and even
with no ignored words, `"a !"` canonicalizes to `"a "` (the stripped
`"!"` leaves a trailing empty token, which `join(" ")` turns into a
trailing space), whose second canonicalization is `"a"`. -/
theorem canonicalize_not_idempotent :
    normalizeStr id ["saint"] (normalizeStr id ["saint"] "st")
        ≠ normalizeStr id ["saint"] "st" ∧
    normalizeStr id [] (normalizeStr id [] "a !") ≠ normalizeStr id [] "a !" ∧
    normalizeStr id ["saint"] "st" = "saint" ∧
    normalizeStr id ["saint"] (normalizeStr id ["saint"] "st") = "" ∧
    normalizeStr id [] "a !" = "a " ∧
    normalizeStr id [] (normalizeStr id [] "a !") = "a" :=
  ⟨by decide, by decide, by decide, by decide, by decide, by decide⟩

/-- Claim C3 (amended): a second application of `canonicalize` agrees
with trimming the first result — it can only remove whitespace left at
the ends by stripped punctuation-only tokens — provided `ignoredWords`
contains neither abbreviation target `"saint"` nor `"mount"` (otherwise
the first pass can emit a token the second pass drops).  Idempotence
holds exactly when the first result needs no trimming.  The NFKD
hypothesis states the standard fact that Unicode normalization fixes
ASCII lower-alphanumeric/space strings. -/
theorem canonicalize_double_apply (nfkd : List Char → List Char) (iw : List String)
    (s : String) (hs : "saint" ∉ iw) (hm : "mount" ∉ iw)
    (hn : ∀ cs : List Char, (∀ c ∈ cs, tokenChar c = true ∨ c = ' ') → nfkd cs = cs) :
    normalizeStr nfkd iw (normalizeStr nfkd iw s)
      = ⟨jsTrim (normalizeStr nfkd iw s).data⟩ := by
  have hsL : ['s', 'a', 'i', 'n', 't'] ∉ iw.map String.data := by
    intro h
    obtain ⟨w, hw, hwd⟩ := List.mem_map.mp h
    apply hs
    have hweq : w = "saint" := by
      have : (⟨w.data⟩ : String) = ⟨['s', 'a', 'i', 'n', 't']⟩ := by rw [hwd]
      exact this
    rwa [hweq] at hw
  have hmL : ['m', 'o', 'u', 'n', 't'] ∉ iw.map String.data := by
    intro h
    obtain ⟨w, hw, hwd⟩ := List.mem_map.mp h
    apply hm
    have hweq : w = "mount" := by
      have : (⟨w.data⟩ : String) = ⟨['m', 'o', 'u', 'n', 't']⟩ := by rw [hwd]
      exact this
    rwa [hweq] at hw
  exact congrArg String.mk
    (normalizeCore_double nfkd (iw.map String.data) s.data hsL hmL hn)

/-- Claim C3, witness. -/
theorem canonicalize_double_apply_witness :
    ("saint" ∉ ([] : List String)) ∧ ("mount" ∉ ([] : List String)) ∧
    (∀ cs : List Char, (∀ c ∈ cs, tokenChar c = true ∨ c = ' ') → id cs = cs) ∧
    normalizeStr id [] (normalizeStr id [] "a !")
      = ⟨jsTrim (normalizeStr id [] "a !").data⟩ :=
  ⟨by decide, by decide, fun _ _ => rfl,
    canonicalize_double_apply id [] "a !" (by decide) (by decide) (fun _ _ => rfl)⟩
